import Mathlib

/-!
Verification of the circuit-continuity logic of the CircuitCourseware lessons.

Each lesson script keeps its circuit state in plain mutable variables and
recomputes the bulb state in a `checkCircuit` function.  The definitions below
are shallow embeddings of those functions:

* lesson 3 (`src/courseware/lesson3/script.js`): user wires between the six
  connection points (battery pos/neg, bulb 1/2, switch front/rear), a switch
  flag, and a `checkCircuit` that builds an adjacency map (wires, the bulb
  intrinsic edge, the switch intrinsic edge when closed), runs a BFS from
  `battery-pos` to `battery-neg`, reconstructs the tree path through the
  `parent` map and lights the bulb iff a bulb node is on that path;
* the unnamed drag-wiring lesson (`src/unnamed/part_000`): a `checkCircuit`
  that only tests, by scanning the wire list, whether some wire links the
  battery `pos` pole to a bulb terminal and some wire links the `neg` pole to
  a bulb terminal;
* lesson 4 (`src/courseware/lesson4/script.js`): a two-slot battery box with
  `checkDrop` snapping logic, orientation checks by a dot product against the
  box axis, and a reset handler;
* lesson 5 (`src/courseware/lesson5/script.js`): two structurally independent
  circuits, each with its own switch flag, slots and bulbs.

Geometry notes (recorded where the embedding abstracts the scene):
* batteries only ever rotate by `rotation.y += Math.PI` per click and reset to
  0, so the dot product of the battery axis with the box axis is `(-1)^k`
  where `k` counts clicks; the embedding stores `k` and evaluates the dot to
  `1` or `-1` exactly as the floating-point code does on reachable states;
* `position.distanceTo(p) < 1.0` is embedded as the squared distance being
  `< 1`, which is equivalent for nonnegative reals;
* the BFS while-loop is embedded with a fuel parameter; `bfsFuel = 13`
  strictly exceeds `2 * 6 + 1`, an upper bound for the loop measure
  `2 * (unvisited nodes) + (queue length)` which decreases at every
  iteration, so the fuel-exhausted branch is unreachable (this is proved
  along the way: all lemmas about `bfsLoop` hold for the fuel used by
  `checkCircuit3`).
-/

/-! ## Lesson 3: data model -/

/-- The six connection points of the lesson 3 scene.  The script names them by
string concatenation of `userData.parent` and `userData.id || userData.pole`,
yielding the six node ids `battery-pos`, `battery-neg`, `bulb-1`, `bulb-2`,
`switch-front`, `switch-rear`. -/
inductive Term3 where
  | batteryPos
  | batteryNeg
  | bulbT1
  | bulbT2
  | switchFront
  | switchRear
deriving DecidableEq

/-- All connection points created at scene setup. -/
def allTerm3 : List Term3 :=
  [.batteryPos, .batteryNeg, .bulbT1, .bulbT2, .switchFront, .switchRear]

/-- The node-id test `curr.includes('bulb')` evaluated on the six node ids. -/
def isBulbNode : Term3 → Bool
  | .bulbT1 => true
  | .bulbT2 => true
  | _ => false

/-- The node-id test `curr.includes('switch')` evaluated on the six node ids. -/
def isSwitchNode : Term3 → Bool
  | .switchFront => true
  | .switchRear => true
  | _ => false

/-- The component instances of the lesson 3 scene (`userData.parent`). -/
inductive Comp3 where
  | battery
  | bulb
  | knifeSwitch
deriving DecidableEq

/-- The `userData.parent` field of each connection point. -/
def componentOf : Term3 → Comp3
  | .batteryPos => .battery
  | .batteryNeg => .battery
  | .bulbT1 => .bulb
  | .bulbT2 => .bulb
  | .switchFront => .knifeSwitch
  | .switchRear => .knifeSwitch

/-- A user wire, stored by lesson 3 as `{ start: userData, end: userData }`. -/
abbrev Wire3 := Term3 × Term3

/-- `isPointOccupied`: some stored wire has this point as its start or end. -/
def isPointOccupied (ws : List Wire3) (t : Term3) : Bool :=
  ws.any fun w => decide (w.1 = t ∨ w.2 = t)

/-- Outcome of a drag gesture, mirroring the branches of the `mousedown` and
`mouseup` handlers: a click on an occupied start point is ignored, a drop on
an occupied / missing / identical end point discards the drawn line, and
otherwise the wire is pushed onto `wires`. -/
inductive AddOutcome where
  | added
  | ignoredStartOccupied
  | invalidDrop
deriving DecidableEq

/-- One wire-drawing gesture from `sp` dropped at `ep` (`none` when the drop
hits no connection point), returning the outcome together with the resulting
wire list. -/
def attemptAddWire (ws : List Wire3) (sp : Term3) (ep : Option Term3) :
    AddOutcome × List Wire3 :=
  if isPointOccupied ws sp then (.ignoredStartOccupied, ws)
  else
    match ep with
    | none => (.invalidDrop, ws)
    | some e =>
      if isPointOccupied ws e then (.invalidDrop, ws)
      else if e = sp then (.invalidDrop, ws)
      else (.added, ws ++ [(sp, e)])

/-! ## Lesson 3: circuit evaluation (`checkCircuit`) -/

/-- The edge list handed to `addEdge`: all user wires, then the bulb intrinsic
edge `bulb-1 <-> bulb-2`, then (only when the switch is closed) the switch
intrinsic edge `switch-front <-> switch-rear`. -/
def circuitEdges (ws : List Wire3) (closed : Bool) : List Wire3 :=
  (ws ++ [(.bulbT1, .bulbT2)]) ++ (if closed then [(.switchFront, .switchRear)] else [])

/-- The adjacency list of `u`: for each edge, `addEdge` pushes the opposite
endpoint onto `u`'s list, in edge order. -/
def nbrs (es : List Wire3) (u : Term3) : List Term3 :=
  es.flatMap fun e =>
    (if e.1 = u then [e.2] else []) ++ (if e.2 = u then [e.1] else [])

/-- `adj.has(u)`: the node was touched by some `addEdge` call. -/
def adjHas (es : List Wire3) (u : Term3) : Bool :=
  es.any fun e => decide (e.1 = u ∨ e.2 = u)

/-- The mutable state of the BFS loop: the `visited` set, the `parent` map
(an association list, newest entry first, each key set at most once) and the
work `queue`. -/
structure BfsState where
  visited : List Term3
  parent : List (Term3 × Term3)
  queue : List Term3

/-- Body of `for (const n of neighbors)`: an unvisited neighbour is marked
visited, gets its parent recorded, and is pushed on the queue. -/
def bfsStep (curr : Term3) (st : BfsState) (n : Term3) : BfsState :=
  if n ∈ st.visited then st
  else ⟨n :: st.visited, (n, curr) :: st.parent, st.queue ++ [n]⟩

/-- The BFS `while (queue.length > 0)` loop.  The fuel parameter bounds the
number of iterations; `checkCircuit3` supplies fuel `13`, which the measure
argument (see the header comment) shows is never exhausted. -/
def bfsLoop (es : List Wire3) (endN : Term3) : Nat → BfsState → Bool × BfsState
  | 0, st => (false, st)
  | _ + 1, ⟨vis, par, []⟩ => (false, ⟨vis, par, []⟩)
  | fuel + 1, ⟨vis, par, curr :: rest⟩ =>
    if curr = endN then (true, ⟨vis, par, curr :: rest⟩)
    else bfsLoop es endN fuel ((nbrs es curr).foldl (bfsStep curr) ⟨vis, par, rest⟩)

/-- `parent.get`, on the association list representation. -/
def lookupPar : List (Term3 × Term3) → Term3 → Option Term3
  | [], _ => none
  | (c, p) :: t, x => if x = c then some p else lookupPar t x

/-- The path-reconstruction loop `while (curr !== startNode) curr =
parent.get(curr)`, collecting the nodes it inspects (from `endNode` down to,
but excluding, `startNode`).  A missing parent entry (which would make the
script loop on `undefined`) yields `none`; the BFS invariants show this never
happens for a found end node. -/
def walkParents (startN : Term3) (par : List (Term3 × Term3)) :
    Nat → Term3 → Option (List Term3)
  | 0, _ => none
  | fuel + 1, curr =>
    if curr = startN then some []
    else
      match lookupPar par curr with
      | none => none
      | some p => (walkParents startN par fuel p).map (curr :: ·)

/-- What `checkCircuit` does to the scene: `bulbOn` is whether `turnOnBulb`
ran, and `successMsg` is the message shown (`some true` is the
switch-was-used congratulation, `some false` the switch-unused hint, `none`
means `turnOffBulb` hid the message). -/
structure Verdict3 where
  bulbOn : Bool
  successMsg : Option Bool
deriving DecidableEq

/-- The `turnOffBulb` outcome. -/
def offVerdict : Verdict3 := ⟨false, none⟩

/-- Fuel for the BFS loop; see the header comment. -/
def bfsFuel : Nat := 13

/-- The tail of `checkCircuit` once the BFS has found the end node: rebuild
the path from the `parent` map, scan it for bulb and switch nodes, and decide
the outcome. -/
def evalPath (par : List (Term3 × Term3)) : Verdict3 :=
  match walkParents .batteryPos par (par.length + 1) .batteryNeg with
  | none => offVerdict
  | some l =>
    if l.any isBulbNode then ⟨true, some (l.any isSwitchNode)⟩ else offVerdict

/-- Lesson 3 `checkCircuit`, as a function of the wire list and the switch
flag. -/
def checkCircuit3 (ws : List Wire3) (closed : Bool) : Verdict3 :=
  let es := circuitEdges ws closed
  if adjHas es .batteryPos = false ∨ adjHas es .batteryNeg = false then offVerdict
  else
    let r := bfsLoop es .batteryNeg bfsFuel ⟨[.batteryPos], [], [.batteryPos]⟩
    if r.1 = true then evalPath r.2.parent else offVerdict

/-- The engine state of lesson 3: the wire list and the switch flag. -/
structure L3State where
  wires : List Wire3
  isSwitchClosed : Bool
deriving DecidableEq

/-- The state at scene setup: `let wires = []`, `let isSwitchClosed = false`. -/
def init3 : L3State := ⟨[], false⟩

/-- `resetCircuit`: removes every wire and opens the switch. -/
def resetCircuit3 (_ : L3State) : L3State := ⟨[], false⟩

/-! ## Lesson 3: specification-side graph notions

These definitions are used to state properties about `checkCircuit3`; they are
not part of the embedded code. -/

/-- Two terminals are joined by some edge of the list (in either
orientation). -/
def edgeBtw (es : List Wire3) (u v : Term3) : Prop :=
  ∃ e ∈ es, (e.1 = u ∧ e.2 = v) ∨ (e.1 = v ∧ e.2 = u)

instance (es : List Wire3) (u v : Term3) : Decidable (edgeBtw es u v) :=
  inferInstanceAs (Decidable (∃ e ∈ es, (e.1 = u ∧ e.2 = v) ∨ (e.1 = v ∧ e.2 = u)))

/-- Last node of the node list `a :: l`. -/
def lastOf (a : Term3) : List Term3 → Term3
  | [] => a
  | x :: t => lastOf x t

/-- `l` lists the nodes after `a` of a simple path from `a` to `b`:
consecutive nodes of `a :: l` are joined by edges, the path ends at `b`, and
no node repeats. -/
def IsPath (es : List Wire3) (a : Term3) (l : List Term3) (b : Term3) : Prop :=
  List.Chain' (edgeBtw es) (a :: l) ∧ lastOf a l = b ∧ (a :: l).Nodup

/-- Executable test for a chain of edges along `a :: l`. -/
def chainB (es : List Wire3) : Term3 → List Term3 → Bool
  | _, [] => true
  | a, x :: t => decide (edgeBtw es a x) && chainB es x t

theorem chainB_iff (es : List Wire3) : ∀ (a : Term3) (l : List Term3),
    chainB es a l = true ↔ List.Chain' (edgeBtw es) (a :: l)
  | _, [] => by simp [chainB]
  | a, x :: t => by
    rw [chainB, Bool.and_eq_true, decide_eq_true_eq, List.chain'_cons]
    exact and_congr Iff.rfl (chainB_iff es x t)

instance (es : List Wire3) (a : Term3) (l : List Term3) (b : Term3) :
    Decidable (IsPath es a l b) :=
  decidable_of_iff (chainB es a l = true ∧ lastOf a l = b ∧ (a :: l).Nodup)
    (by rw [IsPath]; exact and_congr (chainB_iff es a l) Iff.rfl)

/-- Occupancy invariant maintained by the wiring UI: every terminal is the
endpoint of at most one stored wire, and no wire has equal endpoints. -/
def ValidWires (ws : List Wire3) : Prop :=
  (ws.flatMap fun w => [w.1, w.2]).Nodup

instance (ws : List Wire3) : Decidable (ValidWires ws) :=
  inferInstanceAs (Decidable (ws.flatMap fun w => [w.1, w.2]).Nodup)

/-- `u` and `v` appear consecutively (in either order) in the node list. -/
def adjacentIn : List Term3 → Term3 → Term3 → Bool
  | x :: y :: t, u, v =>
    (decide (x = u ∧ y = v) || decide (x = v ∧ y = u)) || adjacentIn (y :: t) u v
  | _, _, _ => false

/-- The node sequence obtained by following the `parent` map from `c`
(inclusive) down to `startN` (exclusive). -/
def WalksTo (startN : Term3) (par : List (Term3 × Term3)) :
    List Term3 → Term3 → Prop
  | [], c => c = startN
  | x :: xs, c => x = c ∧ ∃ p, lookupPar par c = some p ∧ WalksTo startN par xs p

/-- Number of scene terminals not yet visited (the BFS loop measure
component). -/
def notVisCard (vis : List Term3) : Nat :=
  (allTerm3.filter fun t => decide (t ∉ vis)).length

/-- A visited node carries a parent walk: some node list follows the `parent`
map from that node down to the start node, without repetition, inside the
visited set. -/
def Pkg (startN : Term3) (st : BfsState) (c : Term3) : Prop :=
  ∃ l, WalksTo startN st.parent l c ∧ l.Nodup ∧ ∀ x ∈ l, x ∈ st.visited

/-- The part of the BFS invariant concerning `visited` and `parent` only:
every parent entry records a graph edge to an already-visited non-start node,
and every visited node has a parent walk. -/
def SubInv (es : List Wire3) (startN : Term3) (st : BfsState) : Prop :=
  (∀ c p, lookupPar st.parent c = some p → c ∈ st.visited ∧ c ≠ startN ∧ edgeBtw es p c) ∧
    (∀ c ∈ st.visited, Pkg startN st c)

/-- The full BFS loop invariant. -/
structure LoopInv (es : List Wire3) (startN endN : Term3) (st : BfsState) : Prop where
  start_mem : startN ∈ st.visited
  queue_sub : ∀ x ∈ st.queue, x ∈ st.visited
  sub : SubInv es startN st
  processed : ∀ u ∈ st.visited, u ∉ st.queue → ∀ v, edgeBtw es u v → v ∈ st.visited
  end_pending : endN ∈ st.visited → endN ∈ st.queue

/-- The intrinsic-edge partner of a terminal (used to bound node degrees; the
battery terminals, which have no intrinsic edge, are mapped to themselves). -/
def intrinsicOf : Term3 → Term3
  | .bulbT1 => .bulbT2
  | .bulbT2 => .bulbT1
  | .switchFront => .switchRear
  | .switchRear => .switchFront
  | t => t

/-! ## Unnamed drag-wiring lesson (`src/unnamed/part_000`) -/

/-- The four connection points of the part_000 scene. -/
inductive TermP0 where
  | batPos
  | batNeg
  | bulbA
  | bulbB
deriving DecidableEq

/-- `userData.parent === 'bulb'`. -/
def isBulbTermP0 : TermP0 → Bool
  | .bulbA => true
  | .bulbB => true
  | _ => false

/-- A stored wire of part_000. -/
abbrev WireP0 := TermP0 × TermP0

/-- The first test of the `wires.forEach` body: this wire connects the battery
`pos` pole to some bulb terminal. -/
def wirePosToBulb (w : WireP0) : Bool :=
  (decide (w.1 = .batPos) && isBulbTermP0 w.2) ||
    (decide (w.2 = .batPos) && isBulbTermP0 w.1)

/-- The second test: this wire connects the battery `neg` pole to some bulb
terminal. -/
def wireNegToBulb (w : WireP0) : Bool :=
  (decide (w.1 = .batNeg) && isBulbTermP0 w.2) ||
    (decide (w.2 = .batNeg) && isBulbTermP0 w.1)

/-- part_000 `checkCircuit`: accumulate the two flags over the wire list and
call `lightUp` exactly when both hold.  The returned boolean is whether
`lightUp` was invoked (there is no else branch turning the bulb off). -/
def checkCircuitP0 (ws : List WireP0) : Bool :=
  let flags := ws.foldl
    (fun (pn : Bool × Bool) w => (pn.1 || wirePosToBulb w, pn.2 || wireNegToBulb w))
    (false, false)
  flags.1 && flags.2

/-- The part_000 `mouseup` handler: the only validation is that the drop hit a
connection point different from the start point; occupancy and components are
not checked. -/
def attemptAddWireP0 (ws : List WireP0) (sp : TermP0) (ep : Option TermP0) :
    Bool × List WireP0 :=
  match ep with
  | none => (false, ws)
  | some e => if e = sp then (false, ws) else (true, ws ++ [(sp, e)])

/-! ## Lesson 4: battery box with two slots -/

/-- Rational 3-vectors standing for the `THREE.Vector3` positions involved in
the drop test. -/
abbrev Vec3 := ℚ × ℚ × ℚ

/-- Squared distance; `distanceTo(p) < 1.0` is `distSq < 1`. -/
def distSq (a b : Vec3) : ℚ :=
  (a.1 - b.1) * (a.1 - b.1) + (a.2.1 - b.2.1) * (a.2.1 - b.2.1) +
    (a.2.2 - b.2.2) * (a.2.2 - b.2.2)

/-- The two slots of the lesson 4 battery box. -/
inductive SlotId where
  | one
  | two
deriving DecidableEq

/-- World position of each slot: local `(0, 0.6, -1)` and `(0, 0.6, 1)`
translated by the box position `(-3, 0, 0)`. -/
def slotWorld : SlotId → Vec3
  | .one => (-3, 3 / 5, -1)
  | .two => (-3, 3 / 5, 1)

/-- A draggable battery of lesson 4.  `halfTurns` counts the clicks that added
`Math.PI` to `rotation.y` (reset sets it back to 0), so the battery axis dot
the box axis is `1` for even counts and `-1` for odd counts. -/
structure Battery4 where
  inSlot : Option SlotId
  halfTurns : Nat
  pos : Vec3
deriving DecidableEq

/-- `dir.dot(boxRight)` for a battery on a reachable orientation. -/
def batDot (b : Battery4) : ℚ :=
  if b.halfTurns % 2 = 0 then 1 else -1

/-- Which of the two batteries a handler acts on. -/
inductive BatId where
  | one
  | two
deriving DecidableEq

/-- The engine state of lesson 4: the two batteries, the two slot `occupied`
flags, and the switch flag. -/
structure L4State where
  b1 : Battery4
  b2 : Battery4
  occ1 : Bool
  occ2 : Bool
  isSwitchClosed : Bool
deriving DecidableEq

/-- Battery selected by id. -/
def getBat (s : L4State) : BatId → Battery4
  | .one => s.b1
  | .two => s.b2

/-- Replace the battery selected by id. -/
def setBat (s : L4State) : BatId → Battery4 → L4State
  | .one, b => { s with b1 := b }
  | .two, b => { s with b2 := b }

/-- Slot `occupied` flag. -/
def occOf (s : L4State) : SlotId → Bool
  | .one => s.occ1
  | .two => s.occ2

/-- Set a slot `occupied` flag. -/
def setOcc (s : L4State) : SlotId → Bool → L4State
  | .one, v => { s with occ1 := v }
  | .two, v => { s with occ2 := v }

/-- Lesson 4 `checkDrop`: try slot 1 then slot 2; a close, free (or already
owned) slot snaps the battery and marks the slot occupied, returning at once;
otherwise a battery dragged out of its slot frees that slot. -/
def checkDrop4 (s : L4State) (bid : BatId) : L4State :=
  let b := getBat s bid
  if distSq b.pos (slotWorld .one) < 1 ∧ (occOf s .one = false ∨ b.inSlot = some .one) then
    setOcc (setBat s bid { b with pos := slotWorld .one, inSlot := some .one }) .one true
  else if distSq b.pos (slotWorld .two) < 1 ∧ (occOf s .two = false ∨ b.inSlot = some .two) then
    setOcc (setBat s bid { b with pos := slotWorld .two, inSlot := some .two }) .two true
  else
    match b.inSlot with
    | some sl => setOcc (setBat s bid { b with inSlot := none }) sl false
    | none => s

/-- `batteries.find(b => b.userData.inSlot === 1)` over `[battery1, battery2]`. -/
def findInSlot1 (s : L4State) : Option Battery4 :=
  if s.b1.inSlot = some .one then some s.b1
  else if s.b2.inSlot = some .one then some s.b2
  else none

/-- `batteries.find(b => b.userData.inSlot === 2)`. -/
def findInSlot2 (s : L4State) : Option Battery4 :=
  if s.b1.inSlot = some .two then some s.b1
  else if s.b2.inSlot = some .two then some s.b2
  else none

/-- Lesson 4 `checkCircuit`: `some v` means the bulb was driven to state `v`;
`none` is the early `if (!b1 || !b2) return;` that leaves the scene
untouched.  The bulb lights iff both slots are occupied, both batteries are
found, battery 1 points left (`dot < -0.8`), battery 2 points right
(`dot > 0.8`) and the switch is closed. -/
def checkCircuit4 (s : L4State) : Option Bool :=
  if s.occ1 = false ∨ s.occ2 = false then some false
  else
    match findInSlot1 s, findInSlot2 s with
    | some bb1, some bb2 =>
      some (decide (batDot bb1 < -(4 / 5 : ℚ)) && decide (batDot bb2 > (4 / 5 : ℚ)) &&
        s.isSwitchClosed)
    | _, _ => none

/-- `toggleSwitch` of lesson 4 flips only the switch flag. -/
def toggleSwitch4 (s : L4State) : L4State :=
  { s with isSwitchClosed := !s.isSwitchClosed }

/-- Battery starting placements (`battery1.position.set(-2, 0.5, 6.5)` after
the drop height is restored, rotation 0, not docked). -/
def initBat4 : BatId → Battery4
  | .one => ⟨none, 0, (-2, 1 / 2, 13 / 2)⟩
  | .two => ⟨none, 0, (2, 1 / 2, 13 / 2)⟩

/-- The lesson 4 state at scene setup (`isSwitchClosed = false`). -/
def init4 : L4State := ⟨initBat4 .one, initBat4 .two, false, false, false⟩

/-- The lesson 4 `reset-btn` handler: both batteries go back to their start
placements, both slots freed; the switch flag is not touched. -/
def reset4 (s : L4State) : L4State :=
  { b1 := initBat4 .one, b2 := initBat4 .two, occ1 := false, occ2 := false,
    isSwitchClosed := s.isSwitchClosed }

/-- Slot `a` is ghost-occupied: its flag is set but no battery is docked in
it. -/
def ghost4 (s : L4State) (a : SlotId) : Prop :=
  occOf s a = true ∧ (getBat s .one).inSlot ≠ some a ∧ (getBat s .two).inSlot ≠ some a

/-! ## Lesson 5: two independent circuits -/

/-- The two circuits built by `initCircuit`: id 0 (series bulbs) and id 1
(parallel bulbs). -/
inductive CircId where
  | zero
  | one
deriving DecidableEq

/-- Per-circuit state: its switch flag, its box slot flags, and whether its
bulbs are currently on. -/
structure Circuit5 where
  isSwitchClosed : Bool
  occ1 : Bool
  occ2 : Bool
  isBulbsOn : Bool
deriving DecidableEq

/-- A lesson 5 battery: which box and slot it is docked in (the script stores
the `parentBox` and slot object references), its rotation parity, and its
position. -/
structure Battery5 where
  inBox : Option (CircId × SlotId)
  halfTurns : Nat
  pos : Vec3
deriving DecidableEq

/-- The engine state of lesson 5: the two circuits and the four batteries
(ids 1, 2, 11, 12 in `allBatteries` order). -/
structure L5State where
  c0 : Circuit5
  c1 : Circuit5
  b01 : Battery5
  b02 : Battery5
  b11 : Battery5
  b12 : Battery5
deriving DecidableEq

/-- Circuit selected by id. -/
def getCirc (s : L5State) : CircId → Circuit5
  | .zero => s.c0
  | .one => s.c1

/-- Replace the circuit selected by id. -/
def setCirc (s : L5State) : CircId → Circuit5 → L5State
  | .zero, c => { s with c0 := c }
  | .one, c => { s with c1 := c }

/-- `dir.dot(boxRight)` for a lesson 5 battery on a reachable orientation. -/
def batDot5 (b : Battery5) : ℚ :=
  if b.halfTurns % 2 = 0 then 1 else -1

/-- `allBatteries.find(b => b.userData.parentBox === box && b.userData.inSlot
=== slot)`, scanning the four batteries in creation order. -/
def findBat5 (s : L5State) (i : CircId) (sl : SlotId) : Option Battery5 :=
  if s.b01.inBox = some (i, sl) then some s.b01
  else if s.b02.inBox = some (i, sl) then some s.b02
  else if s.b11.inBox = some (i, sl) then some s.b11
  else if s.b12.inBox = some (i, sl) then some s.b12
  else none

/-- Slot-1 orientation test of lesson 5 (`expectedDot < 0` branch): the check
fails when `dot > -0.8`. -/
def orient1OK (b : Battery5) : Bool :=
  decide (¬ batDot5 b > -(4 / 5 : ℚ))

/-- Slot-2 orientation test (`expectedDot > 0` branch): fails when
`dot < 0.8`. -/
def orient2OK (b : Battery5) : Bool :=
  decide (¬ batDot5 b < (4 / 5 : ℚ))

/-- The `allValid` flag computed by the slot loop of lesson 5 `checkCircuit`:
both slots occupied, a battery docked in each, both correctly oriented.  The
loop-with-break accumulates exactly this conjunction. -/
def allValid5 (s : L5State) (i : CircId) : Bool :=
  (getCirc s i).occ1 &&
    (match findBat5 s i .one with
      | none => false
      | some b => orient1OK b) &&
    ((getCirc s i).occ2 &&
      (match findBat5 s i .two with
        | none => false
        | some b => orient2OK b))

/-- Lesson 5 `checkCircuit(circuit)`: drives the chosen circuit's bulbs to
`allValid && isSwitchClosed` and touches nothing else in the engine state. -/
def checkCircuit5 (s : L5State) (i : CircId) : L5State :=
  let c := getCirc s i
  setCirc s i { c with isBulbsOn := allValid5 s i && c.isSwitchClosed }

/-- Lesson 5 `toggleSwitch(circuit)`: flip the circuit's switch flag, then
(after the lever animation) re-evaluate that circuit only. -/
def toggleSwitch5 (s : L5State) (i : CircId) : L5State :=
  let c := getCirc s i
  checkCircuit5 (setCirc s i { c with isSwitchClosed := !c.isSwitchClosed }) i

/-- Battery starting placements of lesson 5: `x = -2` for the first battery of
a box, `x = 2` for the second; `z = 6.5` in the series circuit and `z = 9.5`
in the parallel one. -/
def initL5Bat (i : CircId) (second : Bool) : Battery5 :=
  ⟨none, 0, (if second then 2 else -2, 1 / 2, if i = .one then 19 / 2 else 13 / 2)⟩

/-- The lesson 5 state at scene setup. -/
def init5 : L5State :=
  ⟨⟨false, false, false, false⟩, ⟨false, false, false, false⟩,
    initL5Bat .zero false, initL5Bat .zero true,
    initL5Bat .one false, initL5Bat .one true⟩

/-- The lesson 5 `reset-btn` handler: every circuit gets its switch opened,
its slots freed and its bulbs turned off; every battery is undocked, its
rotation zeroed, and moved back to the start placement computed from its id
(`x` from `id % 10`, `z` from `id > 10`). -/
def reset5 (_ : L5State) : L5State :=
  ⟨⟨false, false, false, false⟩, ⟨false, false, false, false⟩,
    ⟨none, 0, (-2, 1 / 2, 13 / 2)⟩, ⟨none, 0, (2, 1 / 2, 13 / 2)⟩,
    ⟨none, 0, (-2, 1 / 2, 19 / 2)⟩, ⟨none, 0, (2, 1 / 2, 19 / 2)⟩⟩

/-! ## Concrete states used by witnesses -/

/-- A lesson 4 state with both batteries correctly docked and the switch
closed. -/
def l4LitState : L4State :=
  { init4 with
    occ1 := true
    occ2 := true
    b1 := ⟨some .one, 1, slotWorld .one⟩
    b2 := ⟨some .two, 0, slotWorld .two⟩
    isSwitchClosed := true }

/-- A lesson 5 state whose series circuit has both batteries correctly docked
and its switch closed. -/
def l5LitState : L5State :=
  { init5 with
    c0 := ⟨true, true, true, false⟩
    b01 := ⟨some (.zero, .one), 1, (0, 0, 0)⟩
    b02 := ⟨some (.zero, .two), 0, (0, 0, 0)⟩ }

/-- A lesson 4 state in which battery 1 is docked in slot 1 but has been
dragged next to slot 2 (position `(-3, 0.5, 1)`), ready to be dropped. -/
def l4GhostDrop : L4State :=
  { init4 with
    b1 := ⟨some .one, 0, (-3, 1 / 2, 1)⟩
    occ1 := true }

/-- The canonical lesson 3 wiring: battery `pos` to switch `front`, switch
`rear` to bulb terminal 2, bulb terminal 1 to battery `neg`. -/
def demoWires3 : List Wire3 :=
  [(.batteryPos, .switchFront), (.switchRear, .bulbT2), (.bulbT1, .batteryNeg)]

/-- The nodes after `battery-pos` of the only simple path of the canonical
wiring (with the switch closed). -/
def demoPath3 : List Term3 :=
  [.switchFront, .switchRear, .bulbT2, .bulbT1, .batteryNeg]

/-! # Theorems -/

/-! ## Claim C3: occupied-terminal rejection -/

/-- Claim C3: after `addWire(t1, t2)` succeeded, a second gesture starting at
the now-occupied `t1` is rejected by the occupancy check (the `mousedown`
handler ignores the click) and the wire list stays exactly as it was after
the first call. -/
theorem lesson3_occupied_rejection (ws ws2 : List Wire3) (t1 t2 t3 : Term3)
    (h : attemptAddWire ws t1 (some t2) = (.added, ws2)) :
    attemptAddWire ws2 t1 (some t3) = (.ignoredStartOccupied, ws2) := by
  unfold attemptAddWire at h
  by_cases h1 : isPointOccupied ws t1 = true
  · simp [h1] at h
  · rw [Bool.not_eq_true] at h1
    simp only [h1, Bool.false_eq_true, if_false] at h
    by_cases h2 : isPointOccupied ws t2 = true
    · simp [h2] at h
    · rw [Bool.not_eq_true] at h2
      simp only [h2, Bool.false_eq_true, if_false] at h
      by_cases h3 : t2 = t1
      · simp [h3] at h
      · simp only [h3, if_false] at h
        obtain ⟨-, rfl⟩ := Prod.mk.injEq .. ▸ h
        have hocc : isPointOccupied (ws ++ [(t1, t2)]) t1 = true := by
          simp [isPointOccupied]
        unfold attemptAddWire
        rw [hocc]
        simp

/-- Witness for C3 at a concrete state. -/
theorem lesson3_occupied_rejection_witness :
    attemptAddWire [] .batteryPos (some .bulbT1) = (.added, [(.batteryPos, .bulbT1)]) ∧
      attemptAddWire [(.batteryPos, .bulbT1)] .batteryPos (some .bulbT2) =
        (.ignoredStartOccupied, [(.batteryPos, .bulbT1)]) :=
  ⟨by decide,
    lesson3_occupied_rejection [] [(.batteryPos, .bulbT1)] .batteryPos .bulbT1 .bulbT2
      (by decide)⟩

/-! ## Claim C4: same-component wires are in fact accepted -/

/-- Claim C4 counterexample: a wire between the two terminals of the one bulb
is accepted by the `mouseup` handler (only identity of start and end points
is checked), contradicting the claimed `SameComponent` rejection. -/
theorem lesson3_same_component_wire_accepted_cex :
    attemptAddWire [] .bulbT1 (some .bulbT2) = (.added, [(.bulbT1, .bulbT2)]) ∧
      componentOf .bulbT1 = componentOf .bulbT2 ∧ Term3.bulbT1 ≠ Term3.bulbT2 := by
  decide

/-- Claim C4 amended: a gesture between two distinct free terminals of the
same component instance succeeds and appends the wire; the handlers reject
only an occupied or missing endpoint or a drop on the very start point. -/
theorem lesson3_same_component_wire_added (ws : List Wire3) (a b : Term3)
    (_hcomp : componentOf a = componentOf b) (hne : b ≠ a)
    (ha : isPointOccupied ws a = false) (hb : isPointOccupied ws b = false) :
    attemptAddWire ws a (some b) = (.added, ws ++ [(a, b)]) := by
  simp [attemptAddWire, ha, hb, hne]

/-- Witness for the amended C4 at the switch terminals. -/
theorem lesson3_same_component_wire_added_witness :
    componentOf .switchFront = componentOf .switchRear ∧
      attemptAddWire [] .switchFront (some .switchRear) =
        (.added, [(.switchFront, .switchRear)]) :=
  ⟨by decide,
    lesson3_same_component_wire_added _ _ _ (by decide) (by decide) (by decide) (by decide)⟩

/-! ## Claim C5: orientation and installation gating -/

/-- Claim C5: in lesson 4 and in lesson 5, a lit verdict forces every gating
condition: both slots occupied, a battery found in each slot, every battery
correctly oriented, and the switch closed.  Contrapositively, an uninstalled
(slot empty) or misoriented (reversed) battery makes a lit verdict
impossible. -/
theorem orientation_installation_gating :
    (∀ s : L4State, checkCircuit4 s = some true →
      s.occ1 = true ∧ s.occ2 = true ∧ s.isSwitchClosed = true ∧
        (∃ b, findInSlot1 s = some b ∧ batDot b < -(4 / 5 : ℚ)) ∧
        (∃ b, findInSlot2 s = some b ∧ batDot b > (4 / 5 : ℚ))) ∧
    (∀ (s : L5State) (i : CircId),
      (getCirc (checkCircuit5 s i) i).isBulbsOn = true →
      (getCirc s i).occ1 = true ∧ (getCirc s i).occ2 = true ∧
        (∃ b, findBat5 s i .one = some b ∧ orient1OK b = true) ∧
        (∃ b, findBat5 s i .two = some b ∧ orient2OK b = true) ∧
        (getCirc s i).isSwitchClosed = true) := by
  constructor
  · intro s h
    unfold checkCircuit4 at h
    by_cases h1 : s.occ1 = false ∨ s.occ2 = false
    · simp [h1] at h
    · have ho1 : s.occ1 = true := by
        cases hb : s.occ1
        · exact absurd (Or.inl hb) h1
        · rfl
      have ho2 : s.occ2 = true := by
        cases hb : s.occ2
        · exact absurd (Or.inr hb) h1
        · rfl
      rw [if_neg h1] at h
      cases hf1 : findInSlot1 s with
      | none => rw [hf1] at h; simp at h
      | some b1 =>
        cases hf2 : findInSlot2 s with
        | none => rw [hf1, hf2] at h; simp at h
        | some b2 =>
          rw [hf1, hf2] at h
          simp only [Option.some.injEq] at h
          rw [Bool.and_eq_true, Bool.and_eq_true] at h
          obtain ⟨⟨hd1, hd2⟩, hsw⟩ := h
          rw [decide_eq_true_eq] at hd1 hd2
          exact ⟨ho1, ho2, hsw, ⟨b1, rfl, hd1⟩, ⟨b2, rfl, hd2⟩⟩

  · intro s i h
    have hget : ∀ c, getCirc (setCirc s i c) i = c := by
      intro c; cases i <;> rfl
    unfold checkCircuit5 at h
    rw [hget] at h
    simp only at h
    rw [Bool.and_eq_true] at h
    obtain ⟨hv, hsw⟩ := h
    unfold allValid5 at hv
    rw [Bool.and_eq_true, Bool.and_eq_true] at hv
    obtain ⟨⟨ho1, hb1⟩, hv2⟩ := hv
    rw [Bool.and_eq_true] at hv2
    obtain ⟨ho2, hb2⟩ := hv2
    refine ⟨ho1, ho2, ?_, ?_, hsw⟩
    · cases hf : findBat5 s i .one with
      | none => rw [hf] at hb1; simp at hb1
      | some b => rw [hf] at hb1; exact ⟨b, rfl, hb1⟩
    · cases hf : findBat5 s i .two with
      | none => rw [hf] at hb2; simp at hb2
      | some b => rw [hf] at hb2; exact ⟨b, rfl, hb2⟩

/-- Witness for C5: concrete lit states of lesson 4 and lesson 5, with the
gating conditions extracted through the theorem. -/
theorem orientation_installation_gating_witness :
    (checkCircuit4 l4LitState = some true ∧ l4LitState.isSwitchClosed = true) ∧
      ((getCirc (checkCircuit5 l5LitState .zero) .zero).isBulbsOn = true ∧
        (getCirc l5LitState .zero).isSwitchClosed = true) := by
  have h4 : checkCircuit4 l4LitState = some true := by
    simp [checkCircuit4, l4LitState, init4, findInSlot1, findInSlot2, batDot]
    norm_num
  have h5 : (getCirc (checkCircuit5 l5LitState .zero) .zero).isBulbsOn = true := by
    simp [checkCircuit5, l5LitState, init5, getCirc, setCirc, allValid5, findBat5,
      orient1OK, orient2OK, batDot5, initL5Bat]
    norm_num
  exact ⟨⟨h4, (orientation_installation_gating.1 l4LitState h4).2.2.1⟩,
    ⟨h5, ((orientation_installation_gating.2 l5LitState .zero h5)).2.2.2.2⟩⟩

/-! ## Claim C6: what reset restores -/

/-- Claim C6 counterexample: the lesson 4 reset handler never touches the
switch flag, so resetting a state with a closed switch does not return the
engine to its initial state (whose switch is open). -/
theorem lesson4_reset_keeps_switch_cex :
    reset4 { init4 with isSwitchClosed := true } ≠ init4 ∧
      (reset4 { init4 with isSwitchClosed := true }).isSwitchClosed = true := by
  refine ⟨fun h => ?_, rfl⟩
  have h2 := congrArg L4State.isSwitchClosed h
  simp [reset4, init4] at h2

/-- Claim C6 amended: lesson 3's `resetCircuit` and lesson 5's reset handler
return the engine to the initial state from every state; lesson 4's reset
handler restores everything except the switch flag, which it leaves as it
was. -/
theorem reset_restores_initial :
    (∀ s : L3State, resetCircuit3 s = init3) ∧
      (∀ s : L5State, reset5 s = init5) ∧
      (∀ s : L4State, reset4 s = { init4 with isSwitchClosed := s.isSwitchClosed }) := by
  refine ⟨fun s => rfl, fun s => rfl, fun s => rfl⟩

/-! ## Claim C8: independent circuits do not interfere -/

/-- Claim C8: the two lesson 5 circuits share no state; toggling the switch of
either circuit (which also re-evaluates that circuit) leaves the whole record
of the other circuit, in particular its `isBulbsOn` verdict, unchanged. -/
theorem lesson5_toggle_noninterference :
    ∀ s : L5State, (toggleSwitch5 s .zero).c1 = s.c1 ∧ (toggleSwitch5 s .one).c0 = s.c0 :=
  fun _ => ⟨rfl, rfl⟩

/-! ## Claim C9: the drag-wiring lesson checks pole-to-bulb wires only -/

/-- The flag accumulation of the part_000 `wires.forEach` loop computes the
two `any` tests. -/
theorem checkCircuitP0_foldl (ws : List WireP0) (p n : Bool) :
    ws.foldl (fun (pn : Bool × Bool) w => (pn.1 || wirePosToBulb w, pn.2 || wireNegToBulb w))
        (p, n) =
      (p || ws.any wirePosToBulb, n || ws.any wireNegToBulb) := by
  induction ws generalizing p n with
  | nil => simp
  | cons w t ih => simp [ih, Bool.or_assoc]

/-- Claim C9: part_000 declares the bulb lit exactly when some wire joins the
battery `pos` pole to a bulb terminal and some wire joins the `neg` pole to a
bulb terminal; in particular the wiring whose two wires both end on the same
single bulb terminal (terminal 1, leaving terminal 2 and hence the filament
untouched) is declared lit. -/
theorem part0_pole_to_bulb_lights :
    (∀ ws : List WireP0, checkCircuitP0 ws = true ↔
      ((∃ w ∈ ws, wirePosToBulb w = true) ∧ (∃ w ∈ ws, wireNegToBulb w = true))) ∧
      checkCircuitP0 [(.batPos, .bulbA), (.batNeg, .bulbA)] = true ∧
      (∀ w ∈ ([(.batPos, .bulbA), (.batNeg, .bulbA)] : List WireP0),
        w.1 ≠ TermP0.bulbB ∧ w.2 ≠ TermP0.bulbB) := by
  refine ⟨fun ws => ?_, by decide, by decide⟩
  unfold checkCircuitP0
  rw [checkCircuitP0_foldl]
  simp [List.any_eq_true]

/-! ## Claim C10: slot-occupancy ghosting in lesson 4 -/

/-- `checkDrop` branch: the first slot accepts the battery. -/
theorem checkDrop4_snap1 (s : L4State) (bid : BatId)
    (h1 : distSq (getBat s bid).pos (slotWorld .one) < 1 ∧
      (occOf s .one = false ∨ (getBat s bid).inSlot = some .one)) :
    checkDrop4 s bid =
      setOcc (setBat s bid
        { getBat s bid with pos := slotWorld .one, inSlot := some .one }) .one true := by
  unfold checkDrop4
  rw [if_pos h1]

/-- `checkDrop` branch: the first slot refuses, the second accepts. -/
theorem checkDrop4_snap2 (s : L4State) (bid : BatId)
    (h1 : ¬ (distSq (getBat s bid).pos (slotWorld .one) < 1 ∧
      (occOf s .one = false ∨ (getBat s bid).inSlot = some .one)))
    (h2 : distSq (getBat s bid).pos (slotWorld .two) < 1 ∧
      (occOf s .two = false ∨ (getBat s bid).inSlot = some .two)) :
    checkDrop4 s bid =
      setOcc (setBat s bid
        { getBat s bid with pos := slotWorld .two, inSlot := some .two }) .two true := by
  unfold checkDrop4
  rw [if_neg h1, if_pos h2]

/-- Claim C10: dropping a battery docked in slot `a` within snapping distance
of the other, unoccupied slot `b'` snaps it into `b'` without clearing
`a`'s occupied flag, leaving `a` ghost-occupied (occupied, but no battery
docked in it); ghost-occupancy survives every further drop and switch toggle;
under it the circuit check can never produce a lit verdict; and only reset
clears it. -/
theorem lesson4_slot_ghosting :
    (∀ (s : L4State) (bid : BatId) (a b' : SlotId), a ≠ b' →
      (getBat s bid).inSlot = some a → occOf s a = true → occOf s b' = false →
      distSq (getBat s bid).pos (slotWorld b') < 1 →
      ¬ distSq (getBat s bid).pos (slotWorld a) < 1 →
      (∀ bid', bid' ≠ bid → (getBat s bid').inSlot ≠ some a) →
      ghost4 (checkDrop4 s bid) a ∧
        (getBat (checkDrop4 s bid) bid).inSlot = some b' ∧
        occOf (checkDrop4 s bid) b' = true) ∧
    (∀ (s : L4State) (bid : BatId) (a : SlotId), ghost4 s a → ghost4 (checkDrop4 s bid) a) ∧
    (∀ (s : L4State) (a : SlotId), ghost4 s a → ghost4 (toggleSwitch4 s) a) ∧
    (∀ (s : L4State) (a : SlotId), ghost4 s a → checkCircuit4 s ≠ some true) ∧
    (∀ (s : L4State) (a : SlotId), ¬ ghost4 (reset4 s) a) := by
  refine ⟨?_, ?_, ?_, ?_, ?_⟩
  · intro s bid a b' hab hin hocca hoccb hnear hfar hother
    have hoth : ∀ bid', bid' ≠ bid → (getBat s bid').inSlot ≠ some a := hother
    cases a with
    | one =>
      cases b' with
      | one => exact absurd rfl hab
      | two =>
        have h1 : ¬ (distSq (getBat s bid).pos (slotWorld .one) < 1 ∧
            (occOf s .one = false ∨ (getBat s bid).inSlot = some .one)) :=
          fun hc => hfar hc.1
        have h2 : distSq (getBat s bid).pos (slotWorld .two) < 1 ∧
            (occOf s .two = false ∨ (getBat s bid).inSlot = some .two) :=
          ⟨hnear, Or.inl hoccb⟩
        rw [checkDrop4_snap2 s bid h1 h2]
        cases bid with
        | one =>
          have h2' := hoth .two (by decide)
          refine ⟨⟨?_, ?_, ?_⟩, ?_, ?_⟩ <;>
            simp_all [ghost4, getBat, setBat, setOcc, occOf]
        | two =>
          have h2' := hoth .one (by decide)
          refine ⟨⟨?_, ?_, ?_⟩, ?_, ?_⟩ <;>
            simp_all [ghost4, getBat, setBat, setOcc, occOf]
    | two =>
      cases b' with
      | two => exact absurd rfl hab
      | one =>
        have h1 : distSq (getBat s bid).pos (slotWorld .one) < 1 ∧
            (occOf s .one = false ∨ (getBat s bid).inSlot = some .one) :=
          ⟨hnear, Or.inl hoccb⟩
        rw [checkDrop4_snap1 s bid h1]
        cases bid with
        | one =>
          have h2' := hoth .two (by decide)
          refine ⟨⟨?_, ?_, ?_⟩, ?_, ?_⟩ <;>
            simp_all [ghost4, getBat, setBat, setOcc, occOf]
        | two =>
          have h2' := hoth .one (by decide)
          refine ⟨⟨?_, ?_, ?_⟩, ?_, ?_⟩ <;>
            simp_all [ghost4, getBat, setBat, setOcc, occOf]
  · intro s bid a hg
    obtain ⟨hocc, h1, h2⟩ := hg
    unfold checkDrop4
    by_cases c1 : distSq (getBat s bid).pos (slotWorld .one) < 1 ∧
        (occOf s .one = false ∨ (getBat s bid).inSlot = some .one)
    · rw [if_pos c1]
      cases bid <;> cases a <;>
        simp_all [getBat, setBat, setOcc, occOf, ghost4]
    · rw [if_neg c1]
      by_cases c2 : distSq (getBat s bid).pos (slotWorld .two) < 1 ∧
          (occOf s .two = false ∨ (getBat s bid).inSlot = some .two)
      · rw [if_pos c2]
        cases bid <;> cases a <;>
          simp_all [getBat, setBat, setOcc, occOf, ghost4]
      · rw [if_neg c2]
        cases hsl : (getBat s bid).inSlot with
        | none => exact ⟨hocc, h1, h2⟩
        | some sl =>
          cases bid <;> cases a <;> cases sl <;>
            simp_all [getBat, setBat, setOcc, occOf, ghost4]
  · intro s a hg
    obtain ⟨hocc, h1, h2⟩ := hg
    cases a <;> simp_all [toggleSwitch4, ghost4, occOf, getBat]
  · intro s a hg h
    obtain ⟨hocc, h1, h2⟩ := hg
    unfold checkCircuit4 at h
    by_cases hc : s.occ1 = false ∨ s.occ2 = false
    · simp [hc] at h
    · rw [if_neg hc] at h
      cases a with
      | one =>
        have hf : findInSlot1 s = none := by
          simp_all [findInSlot1, getBat]
        rw [hf] at h
        simp at h
      | two =>
        have hf : findInSlot2 s = none := by
          simp_all [findInSlot2, getBat]
        rw [hf] at h
        cases findInSlot1 s <;> simp at h
  · intro s a hg
    obtain ⟨hocc, -, -⟩ := hg
    cases a <;> simp [reset4, occOf] at hocc

/-- Witness for C10: the concrete ghosting drop. -/
theorem lesson4_slot_ghosting_witness :
    ghost4 (checkDrop4 l4GhostDrop .one) .one ∧
      (getBat (checkDrop4 l4GhostDrop .one) .one).inSlot = some .two ∧
      occOf (checkDrop4 l4GhostDrop .one) .two = true ∧
      checkCircuit4 (checkDrop4 l4GhostDrop .one) ≠ some true := by
  have hmain := lesson4_slot_ghosting.1 l4GhostDrop .one .one .two (by decide)
    (by rfl) (by rfl) (by rfl)
    (by show distSq _ _ < 1; simp [l4GhostDrop, init4, getBat, slotWorld, distSq]; norm_num)
    (by show ¬ distSq _ _ < 1; simp [l4GhostDrop, init4, getBat, slotWorld, distSq]; norm_num)
    (by intro bid' hb'; cases bid' <;> simp_all [l4GhostDrop, init4, getBat, initBat4])
  exact ⟨hmain.1, hmain.2.1, hmain.2.2,
    lesson4_slot_ghosting.2.2.2.1 _ .one hmain.1⟩

/-! ## Lesson 3 graph machinery: edges, degrees, unique paths -/

/-- Membership in an adjacency list is edge existence. -/
theorem mem_nbrs_iff (es : List Wire3) (u v : Term3) : v ∈ nbrs es u ↔ edgeBtw es u v := by
  unfold nbrs edgeBtw
  simp only [List.mem_flatMap]
  constructor
  · rintro ⟨e, he, hv⟩
    refine ⟨e, he, ?_⟩
    rw [List.mem_append] at hv
    rcases hv with hv | hv
    · by_cases h1 : e.1 = u
      · rw [if_pos h1, List.mem_singleton] at hv
        exact Or.inl ⟨h1, hv.symm⟩
      · rw [if_neg h1] at hv
        exact absurd hv (List.not_mem_nil v)
    · by_cases h2 : e.2 = u
      · rw [if_pos h2, List.mem_singleton] at hv
        exact Or.inr ⟨hv.symm, h2⟩
      · rw [if_neg h2] at hv
        exact absurd hv (List.not_mem_nil v)
  · rintro ⟨e, he, hv⟩
    refine ⟨e, he, ?_⟩
    rw [List.mem_append]
    rcases hv with ⟨h1, h2⟩ | ⟨h1, h2⟩
    · left; simp [h1, h2]
    · right; simp [h1, h2]

/-- Edge existence is symmetric. -/
theorem edgeBtw_symm {es : List Wire3} {u v : Term3} (h : edgeBtw es u v) :
    edgeBtw es v u := by
  obtain ⟨e, he, hd⟩ := h
  exact ⟨e, he, hd.symm⟩

/-- An incident edge makes `adj.has` true. -/
theorem adjHas_of_edge {es : List Wire3} {u v : Term3} (h : edgeBtw es u v) :
    adjHas es u = true := by
  obtain ⟨e, he, hd⟩ := h
  unfold adjHas
  rw [List.any_eq_true]
  refine ⟨e, he, ?_⟩
  rcases hd with ⟨h1, -⟩ | ⟨-, h2⟩
  · simp [h1]
  · simp [h2]

/-- Edge existence over an appended list splits. -/
theorem edgeBtw_append {es1 es2 : List Wire3} {u v : Term3} :
    edgeBtw (es1 ++ es2) u v ↔ edgeBtw es1 u v ∨ edgeBtw es2 u v := by
  unfold edgeBtw
  simp only [List.mem_append]
  constructor
  · rintro ⟨e, he | he, hd⟩
    · exact Or.inl ⟨e, he, hd⟩
    · exact Or.inr ⟨e, he, hd⟩
  · rintro (⟨e, he, hd⟩ | ⟨e, he, hd⟩)
    · exact ⟨e, Or.inl he, hd⟩
    · exact ⟨e, Or.inr he, hd⟩

/-- The last node of a node list is a member of it. -/
theorem lastOf_mem (a : Term3) (l : List Term3) : lastOf a l ∈ a :: l := by
  induction l generalizing a with
  | nil => simp [lastOf]
  | cons x t ih =>
    rw [lastOf, List.mem_cons]
    exact Or.inr (ih x)

/-- The last node of a list ending in `z` is `z`. -/
theorem lastOf_append (a : Term3) (t : List Term3) (z : Term3) :
    lastOf a (t ++ [z]) = z := by
  induction t generalizing a with
  | nil => rfl
  | cons x r ih => rw [List.cons_append, lastOf, ih]

/-- A nonempty chain ends with an edge into its last node. -/
theorem chain_last_edge {R : Term3 → Term3 → Prop} (l : List Term3) (a : Term3)
    (hc : List.Chain' R (a :: l)) (hne : l ≠ []) : ∃ u, R u (lastOf a l) := by
  induction l generalizing a with
  | nil => exact absurd rfl hne
  | cons x t ih =>
    rw [List.chain'_cons] at hc
    cases t with
    | nil =>
      rw [lastOf, lastOf]
      exact ⟨a, hc.1⟩
    | cons y r =>
      rw [lastOf]
      exact ih x hc.2 (by simp)

/-- Under the occupancy invariant a terminal is incident to at most one user
wire, so its wire neighbour is unique. -/
theorem valid_wire_nbr_unique {ws : List Wire3} (hv : ValidWires ws) :
    ∀ u v1 v2, edgeBtw ws u v1 → edgeBtw ws u v2 → v1 = v2 := by
  induction ws with
  | nil =>
    intro u v1 v2 h1
    obtain ⟨e, he, -⟩ := h1
    simp at he
  | cons w t ih =>
    intro u v1 v2 h1 h2
    unfold ValidWires at hv
    rw [List.flatMap_cons] at hv
    have hw12 : w.1 ≠ w.2 := by
      intro h
      rw [List.cons_append, List.nodup_cons] at hv
      exact hv.1 (by simp [h])
    have hw1 : w.1 ∉ t.flatMap fun w => [w.1, w.2] := by
      rw [List.cons_append, List.nodup_cons] at hv
      intro h
      exact hv.1 (by simp [h])
    have hw2 : w.2 ∉ t.flatMap fun w => [w.1, w.2] := by
      rw [List.cons_append, List.nodup_cons] at hv
      have := hv.2
      rw [List.singleton_append, List.nodup_cons] at this
      exact this.1
    have hvt : ValidWires t := by
      unfold ValidWires
      rw [List.cons_append, List.nodup_cons] at hv
      have := hv.2
      rw [List.singleton_append, List.nodup_cons] at this
      exact this.2
    have hmem : ∀ e ∈ t, ∀ x : Term3, e.1 = x ∨ e.2 = x →
        x ∈ t.flatMap fun w => [w.1, w.2] := by
      intro e he x hx
      rw [List.mem_flatMap]
      refine ⟨e, he, ?_⟩
      rcases hx with h | h <;> simp [← h]
    obtain ⟨e1, he1, hd1⟩ := h1
    obtain ⟨e2, he2, hd2⟩ := h2
    rw [List.mem_cons] at he1 he2
    rcases he1 with he1 | he1 <;> rcases he2 with he2 | he2
    · subst he1
      subst he2
      rcases hd1 with ⟨a1, b1⟩ | ⟨a1, b1⟩ <;> rcases hd2 with ⟨a2, b2⟩ | ⟨a2, b2⟩
      · exact b1.symm.trans b2
      · exact absurd (a1.trans b2.symm) hw12
      · exact absurd (a2.trans b1.symm) hw12
      · exact a1.symm.trans a2
    · subst he1
      have hu : u ∈ t.flatMap fun w => [w.1, w.2] := by
        refine hmem e2 he2 u ?_
        rcases hd2 with ⟨a, -⟩ | ⟨-, b⟩
        · exact Or.inl a
        · exact Or.inr b
      rcases hd1 with ⟨a, -⟩ | ⟨-, b⟩
      · exact absurd hu (a ▸ hw1)
      · exact absurd hu (b ▸ hw2)
    · subst he2
      have hu : u ∈ t.flatMap fun w => [w.1, w.2] := by
        refine hmem e1 he1 u ?_
        rcases hd1 with ⟨a, -⟩ | ⟨-, b⟩
        · exact Or.inl a
        · exact Or.inr b
      rcases hd2 with ⟨a, -⟩ | ⟨-, b⟩
      · exact absurd hu (a ▸ hw1)
      · exact absurd hu (b ▸ hw2)
    · exact ih hvt u v1 v2 ⟨e1, he1, hd1⟩ ⟨e2, he2, hd2⟩

/-- An edge of the evaluated graph is a user wire, the bulb intrinsic edge, or
(when closed) the switch intrinsic edge. -/
theorem edgeBtw_circuit {ws : List Wire3} {closed : Bool} {u v : Term3}
    (h : edgeBtw (circuitEdges ws closed) u v) :
    edgeBtw ws u v ∨
      ((u = .bulbT1 ∧ v = .bulbT2) ∨ (u = .bulbT2 ∧ v = .bulbT1)) ∨
      (closed = true ∧
        ((u = .switchFront ∧ v = .switchRear) ∨ (u = .switchRear ∧ v = .switchFront))) := by
  unfold circuitEdges at h
  rw [edgeBtw_append, edgeBtw_append] at h
  rcases h with (h | h) | h
  · exact Or.inl h
  · obtain ⟨e, he, hd⟩ := h
    rw [List.mem_singleton] at he
    subst he
    rcases hd with ⟨h1, h2⟩ | ⟨h1, h2⟩
    · exact Or.inr (Or.inl (Or.inl ⟨h1.symm, h2.symm⟩))
    · exact Or.inr (Or.inl (Or.inr ⟨h2.symm, h1.symm⟩))
  · cases closed with
    | false =>
      obtain ⟨e, he, -⟩ := h
      simp at he
    | true =>
      obtain ⟨e, he, hd⟩ := h
      simp only [if_pos, List.mem_singleton] at he
      subst he
      rcases hd with ⟨h1, h2⟩ | ⟨h1, h2⟩
      · exact Or.inr (Or.inr ⟨rfl, Or.inl ⟨h1.symm, h2.symm⟩⟩)
      · exact Or.inr (Or.inr ⟨rfl, Or.inr ⟨h2.symm, h1.symm⟩⟩)

/-- A user wire is an edge of the evaluated graph. -/
theorem edgeBtw_circuit_of_wire {ws : List Wire3} {closed : Bool} {u v : Term3}
    (h : edgeBtw ws u v) : edgeBtw (circuitEdges ws closed) u v := by
  unfold circuitEdges
  rw [edgeBtw_append, edgeBtw_append]
  exact Or.inl (Or.inl h)

/-- Every terminal of the evaluated graph has at most two distinct
neighbours: its unique wire partner (by occupancy) and its intrinsic-edge
partner. -/
theorem nbr_bound {ws : List Wire3} (hv : ValidWires ws) (closed : Bool) (u : Term3) :
    ∃ x y, ∀ v, edgeBtw (circuitEdges ws closed) u v → v = x ∨ v = y := by
  by_cases hw : ∃ t, edgeBtw ws u t
  · obtain ⟨x, hx⟩ := hw
    refine ⟨x, intrinsicOf u, fun v hv' => ?_⟩
    rcases edgeBtw_circuit hv' with h | h | h
    · exact Or.inl (valid_wire_nbr_unique hv u v x h hx)
    · rcases h with ⟨h1, h2⟩ | ⟨h1, h2⟩ <;> subst h1 <;> subst h2 <;> exact Or.inr rfl
    · obtain ⟨-, hd⟩ := h
      rcases hd with ⟨h1, h2⟩ | ⟨h1, h2⟩ <;> subst h1 <;> subst h2 <;> exact Or.inr rfl
  · refine ⟨u, intrinsicOf u, fun v hv' => ?_⟩
    rcases edgeBtw_circuit hv' with h | h | h
    · exact absurd ⟨v, h⟩ hw
    · rcases h with ⟨h1, h2⟩ | ⟨h1, h2⟩ <;> subst h1 <;> subst h2 <;> exact Or.inr rfl
    · obtain ⟨-, hd⟩ := h
      rcases hd with ⟨h1, h2⟩ | ⟨h1, h2⟩ <;> subst h1 <;> subst h2 <;> exact Or.inr rfl

/-- `battery-pos` has at most one neighbour: its unique wire partner (a
battery pole has no intrinsic edge). -/
theorem pos_nbr_bound {ws : List Wire3} (hv : ValidWires ws) (closed : Bool) :
    ∃ x, ∀ v, edgeBtw (circuitEdges ws closed) .batteryPos v → v = x := by
  by_cases hw : ∃ t, edgeBtw ws .batteryPos t
  · obtain ⟨x, hx⟩ := hw
    refine ⟨x, fun v hv' => ?_⟩
    rcases edgeBtw_circuit hv' with h | h | h
    · exact valid_wire_nbr_unique hv _ v x h hx
    · rcases h with ⟨h1, -⟩ | ⟨h1, -⟩ <;> exact absurd h1 (by decide)
    · obtain ⟨-, hd⟩ := h
      rcases hd with ⟨h1, -⟩ | ⟨h1, -⟩ <;> exact absurd h1 (by decide)
  · refine ⟨.batteryPos, fun v hv' => ?_⟩
    rcases edgeBtw_circuit hv' with h | h | h
    · exact absurd ⟨v, h⟩ hw
    · rcases h with ⟨h1, -⟩ | ⟨h1, -⟩ <;> exact absurd h1 (by decide)
    · obtain ⟨-, hd⟩ := h
      rcases hd with ⟨h1, -⟩ | ⟨h1, -⟩ <;> exact absurd h1 (by decide)

/-- In a graph of maximum degree two, a simple path continuing away from a
known neighbour is unique. -/
theorem path_unique_from {es : List Wire3}
    (hdeg : ∀ u, ∃ x y, ∀ v, edgeBtw es u v → v = x ∨ v = y) :
    ∀ (l1 l2 : List Term3) (a b o : Term3),
      edgeBtw es o a →
      List.Chain' (edgeBtw es) (a :: l1) → lastOf a l1 = b → (a :: l1).Nodup →
      o ∉ a :: l1 →
      List.Chain' (edgeBtw es) (a :: l2) → lastOf a l2 = b → (a :: l2).Nodup →
      o ∉ a :: l2 →
      l1 = l2 := by
  intro l1
  induction l1 with
  | nil =>
    intro l2 a b o hoa hc1 hl1 hn1 ho1 hc2 hl2 hn2 ho2
    rw [lastOf] at hl1
    cases l2 with
    | nil => rfl
    | cons y t2 =>
      exfalso
      rw [lastOf] at hl2
      have hmem : b ∈ y :: t2 := hl2 ▸ lastOf_mem y t2
      rw [← hl1] at hmem
      rw [List.nodup_cons] at hn2
      exact hn2.1 hmem
  | cons x t1 ih =>
    intro l2 a b o hoa hc1 hl1 hn1 ho1 hc2 hl2 hn2 ho2
    have hab : a ≠ b := by
      intro h
      rw [lastOf] at hl1
      have hmem : b ∈ x :: t1 := hl1 ▸ lastOf_mem x t1
      rw [List.nodup_cons] at hn1
      exact hn1.1 (h ▸ hmem)
    cases l2 with
    | nil =>
      rw [lastOf] at hl2
      exact absurd hl2 hab
    | cons y t2 =>
      rw [List.chain'_cons] at hc1 hc2
      have hax : edgeBtw es a x := hc1.1
      have hay : edgeBtw es a y := hc2.1
      have hao : edgeBtw es a o := edgeBtw_symm hoa
      obtain ⟨p, q, hpq⟩ := hdeg a
      have hox : o ≠ x := by
        intro h
        exact ho1 (h ▸ List.mem_cons.2 (Or.inr (List.mem_cons_self _ _)))
      have hoy : o ≠ y := by
        intro h
        exact ho2 (h ▸ List.mem_cons.2 (Or.inr (List.mem_cons_self _ _)))
      have key : ∀ z, edgeBtw es a z → o ≠ z → z = if o = p then q else p := by
        intro z hz hoz
        rcases hpq z hz with hzp | hzq
        · by_cases hop : o = p
          · exact absurd (hop.trans hzp.symm) hoz
          · rw [if_neg hop]
            exact hzp
        · by_cases hop : o = p
          · rw [if_pos hop]
            exact hzq
          · rcases hpq o hao with h | h
            · exact absurd h hop
            · exact absurd (h.trans hzq.symm) hoz
      have hxy : x = y := (key x hax hox).trans (key y hay hoy).symm
      subst hxy
      rw [lastOf] at hl1 hl2
      rw [List.nodup_cons] at hn1 hn2
      have ht : t1 = t2 :=
        ih t2 x b a hax hc1.2 hl1 hn1.2 hn1.1 hc2.2 hl2 hn2.2 hn2.1
      rw [ht]

/-- Under the occupancy invariant the simple path from `battery-pos` to
`battery-neg` is unique. -/
theorem path_unique {ws : List Wire3} (hv : ValidWires ws) (closed : Bool)
    (l1 l2 : List Term3)
    (h1 : IsPath (circuitEdges ws closed) .batteryPos l1 .batteryNeg)
    (h2 : IsPath (circuitEdges ws closed) .batteryPos l2 .batteryNeg) : l1 = l2 := by
  obtain ⟨hc1, hl1, hn1⟩ := h1
  obtain ⟨hc2, hl2, hn2⟩ := h2
  cases l1 with
  | nil =>
    rw [lastOf] at hl1
    exact absurd hl1 (by decide)
  | cons x t1 =>
    cases l2 with
    | nil =>
      rw [lastOf] at hl2
      exact absurd hl2 (by decide)
    | cons y t2 =>
      rw [List.chain'_cons] at hc1 hc2
      obtain ⟨x0, hx0⟩ := pos_nbr_bound hv closed
      have hxy : x = y := (hx0 x hc1.1).trans (hx0 y hc2.1).symm
      subst hxy
      rw [lastOf] at hl1 hl2
      rw [List.nodup_cons] at hn1 hn2
      have ht : t1 = t2 :=
        path_unique_from (fun u => nbr_bound hv closed u) t1 t2 x .batteryNeg .batteryPos
          hc1.1 hc1.2 hl1 hn1.2 hn1.1 hc2.2 hl2 hn2.2 hn2.1
      rw [ht]

/-! ## Lesson 3 BFS machinery: parent walks and the loop invariant -/

/-- A fresh parent entry does not disturb an existing parent walk. -/
theorem walksTo_cons_fresh {startN : Term3} {par : List (Term3 × Term3)} {n y : Term3} :
    ∀ (l : List Term3) (c : Term3), WalksTo startN par l c → (∀ x ∈ l, x ≠ n) →
      WalksTo startN ((n, y) :: par) l c := by
  intro l
  induction l with
  | nil =>
    intro c h _
    exact h
  | cons x xs ih =>
    intro c h hne
    obtain ⟨hx, p, hlk, hw⟩ := h
    refine ⟨hx, p, ?_, ih p hw fun z hz => hne z (List.mem_cons.2 (Or.inr hz))⟩
    rw [lookupPar, if_neg ?_]
    · exact hlk
    · intro hcn
      exact hne x (List.mem_cons_self _ _) (hx ▸ hcn)

/-- Every node of a parent walk is a key of the parent map. -/
theorem walksTo_keys {startN : Term3} {par : List (Term3 × Term3)} :
    ∀ (l : List Term3) (c : Term3), WalksTo startN par l c →
      ∀ x ∈ l, ∃ p, lookupPar par x = some p := by
  intro l
  induction l with
  | nil =>
    intro c _ x hx
    exact absurd hx (List.not_mem_nil x)
  | cons z xs ih =>
    intro c h x hx
    obtain ⟨hz, p, hlk, hw⟩ := h
    rcases List.mem_cons.1 hx with rfl | hx'
    · exact ⟨p, hz ▸ hlk⟩
    · exact ih p hw x hx'

/-- With enough fuel, the reconstruction loop follows a parent walk exactly. -/
theorem walksTo_walkParents {startN : Term3} {par : List (Term3 × Term3)}
    (hkey : ∀ c p, lookupPar par c = some p → c ≠ startN) :
    ∀ (l : List Term3) (c : Term3), WalksTo startN par l c →
      ∀ f, l.length < f → walkParents startN par f c = some l := by
  intro l
  induction l with
  | nil =>
    intro c h f hf
    have h' : c = startN := h
    cases f with
    | zero => omega
    | succ f' =>
      rw [walkParents, if_pos h']
  | cons x xs ih =>
    intro c h f hf
    obtain ⟨hx, p, hlk, hw⟩ := h
    cases f with
    | zero => omega
    | succ f' =>
      rw [walkParents, if_neg (hkey c p hlk), hlk]
      show Option.map (fun z => c :: z) (walkParents startN par f' p) = some (x :: xs)
      rw [ih p hw f' (by simpa using hf)]
      simp [hx]

/-- Every scene terminal is in the setup list. -/
theorem mem_allTerm3 (t : Term3) : t ∈ allTerm3 := by
  cases t <;> decide

/-- Filtering with a weaker predicate keeps at least as many elements. -/
theorem filter_length_mono (l : List Term3) {p q : Term3 → Bool}
    (h : ∀ x, p x = true → q x = true) :
    (l.filter p).length ≤ (l.filter q).length := by
  induction l with
  | nil => exact Nat.le_refl 0
  | cons x t ih =>
    rw [List.filter_cons, List.filter_cons]
    by_cases hp : p x = true
    · rw [if_pos hp, if_pos (h x hp)]
      simpa using ih
    · rw [if_neg hp]
      by_cases hq : q x = true
      · rw [if_pos hq]
        exact ih.trans (by simp)
      · rw [if_neg hq]
        exact ih

/-- Growing the visited set cannot increase the unvisited count. -/
theorem notVisCard_mono {vis vis' : List Term3} (h : ∀ x ∈ vis, x ∈ vis') :
    notVisCard vis' ≤ notVisCard vis := by
  unfold notVisCard
  refine filter_length_mono allTerm3 fun x hx => ?_
  rw [decide_eq_true_eq] at hx ⊢
  exact fun hm => hx (h x hm)

/-- Visiting a fresh terminal decreases the unvisited count by exactly one. -/
theorem notVisCard_cons {n : Term3} {vis : List Term3} (h : n ∉ vis) :
    notVisCard (n :: vis) + 1 = notVisCard vis := by
  have aux : ∀ l : List Term3, l.Nodup → n ∈ l →
      (l.filter fun t => decide (t ∉ n :: vis)).length + 1 =
        (l.filter fun t => decide (t ∉ vis)).length := by
    intro l
    induction l with
    | nil =>
      intro _ hmem
      exact absurd hmem (List.not_mem_nil n)
    | cons x t ih =>
      intro hnd hmem
      rw [List.nodup_cons] at hnd
      rw [List.filter_cons, List.filter_cons]
      rcases List.mem_cons.1 hmem with rfl | hmem'
      · rw [if_neg (by simp), if_pos (by simpa using h)]
        have hcong : t.filter (fun s => decide (s ∉ n :: vis)) =
            t.filter fun s => decide (s ∉ vis) := by
          refine List.filter_congr fun y hy => ?_
          have hyn : y ≠ n := fun hEq => hnd.1 (hEq ▸ hy)
          simp [List.mem_cons, hyn]
        rw [hcong]
        simp
      · have hxn : x ≠ n := fun hEq => hnd.1 (hEq ▸ hmem')
        by_cases hxv : x ∈ vis
        · rw [if_neg (by simp [hxv]), if_neg (by simpa using hxv)]
          exact ih hnd.2 hmem'
        · rw [if_pos (by simp [List.mem_cons, hxn, hxv]), if_pos (by simpa using hxv)]
          rw [List.length_cons, List.length_cons]
          rw [← ih hnd.2 hmem']
  exact aux allTerm3 (by decide) (mem_allTerm3 n)

/-- Processing one neighbour list: how the fold over `bfsStep` transforms the
BFS state.  The conjuncts: the sub-invariant is preserved; the visited set
grows, only by neighbours, and absorbs every neighbour; the queue grows and
only by newly visited nodes; newly visited nodes sit in the queue; and the
loop measure component is conserved. -/
theorem bfsFold_facts (es : List Wire3) (startN curr : Term3) :
    ∀ (ns : List Term3) (st : BfsState),
      startN ∈ st.visited → curr ∈ st.visited →
      (∀ n ∈ ns, edgeBtw es curr n) →
      SubInv es startN st →
      SubInv es startN (ns.foldl (bfsStep curr) st) ∧
        (∀ x ∈ st.visited, x ∈ (ns.foldl (bfsStep curr) st).visited) ∧
        (∀ x ∈ (ns.foldl (bfsStep curr) st).visited, x ∈ st.visited ∨ x ∈ ns) ∧
        (∀ n ∈ ns, n ∈ (ns.foldl (bfsStep curr) st).visited) ∧
        (∀ x ∈ st.queue, x ∈ (ns.foldl (bfsStep curr) st).queue) ∧
        (∀ x ∈ (ns.foldl (bfsStep curr) st).queue,
          x ∈ st.queue ∨ x ∈ (ns.foldl (bfsStep curr) st).visited) ∧
        (∀ x ∈ (ns.foldl (bfsStep curr) st).visited, x ∉ st.visited →
          x ∈ (ns.foldl (bfsStep curr) st).queue) ∧
        ((ns.foldl (bfsStep curr) st).queue.length +
            notVisCard (ns.foldl (bfsStep curr) st).visited =
          st.queue.length + notVisCard st.visited) := by
  intro ns
  induction ns with
  | nil =>
    intro st h1 h2 h3 h4
    exact ⟨h4, fun x hx => hx, fun x hx => Or.inl hx, by simp, fun x hx => hx,
      fun x hx => Or.inl hx, fun x hx hx' => absurd hx hx', rfl⟩
  | cons n ns' ih =>
    intro st h1 h2 h3 h4
    rw [List.foldl_cons]
    by_cases hn : n ∈ st.visited
    · have hst : bfsStep curr st n = st := by rw [bfsStep, if_pos hn]
      rw [hst]
      obtain ⟨ha, hb, hc, hd, he, hf, hg, hh⟩ :=
        ih st h1 h2 (fun m hm => h3 m (List.mem_cons.2 (Or.inr hm))) h4
      refine ⟨ha, hb, ?_, ?_, he, hf, hg, hh⟩
      · intro x hx
        rcases hc x hx with h | h
        · exact Or.inl h
        · exact Or.inr (List.mem_cons.2 (Or.inr h))
      · intro m hm
        rcases List.mem_cons.1 hm with rfl | hm'
        · exact hb m hn
        · exact hd m hm'
    · have hst : bfsStep curr st n =
          ⟨n :: st.visited, (n, curr) :: st.parent, st.queue ++ [n]⟩ := by
        rw [bfsStep, if_neg hn]
      rw [hst]
      have hsub1 : SubInv es startN ⟨n :: st.visited, (n, curr) :: st.parent,
          st.queue ++ [n]⟩ := by
        obtain ⟨hkeys, hpkg⟩ := h4
        constructor
        · intro c p hlk
          rw [lookupPar] at hlk
          by_cases hcn : c = n
          · rw [if_pos hcn] at hlk
            obtain rfl : curr = p := Option.some.inj hlk
            subst hcn
            refine ⟨List.mem_cons_self _ _, ?_, h3 c (List.mem_cons_self _ _)⟩
            intro hns
            exact hn (hns ▸ h1)
          · rw [if_neg hcn] at hlk
            obtain ⟨hcv, hcs, hedge⟩ := hkeys c p hlk
            exact ⟨List.mem_cons.2 (Or.inr hcv), hcs, hedge⟩
        · intro c hcv
          rcases List.mem_cons.1 hcv with rfl | hcv'
          · obtain ⟨lc, hw, hnd, hsubl⟩ := hpkg curr h2
            refine ⟨c :: lc, ⟨rfl, curr, ?_, ?_⟩, ?_, ?_⟩
            · rw [lookupPar, if_pos rfl]
            · exact walksTo_cons_fresh lc curr hw fun x hx hxn => hn (hxn ▸ hsubl x hx)
            · rw [List.nodup_cons]
              exact ⟨fun hmem => hn (hsubl c hmem), hnd⟩
            · intro x hx
              rcases List.mem_cons.1 hx with rfl | hx'
              · exact List.mem_cons_self _ _
              · exact List.mem_cons.2 (Or.inr (hsubl x hx'))
          · obtain ⟨lc, hw, hnd, hsubl⟩ := hpkg c hcv'
            refine ⟨lc, walksTo_cons_fresh lc c hw fun x hx hxn => hn (hxn ▸ hsubl x hx),
              hnd, ?_⟩
            intro x hx
            exact List.mem_cons.2 (Or.inr (hsubl x hx))
      obtain ⟨ha, hb, hc, hd, he, hf, hg, hh⟩ :=
        ih ⟨n :: st.visited, (n, curr) :: st.parent, st.queue ++ [n]⟩
          (List.mem_cons.2 (Or.inr h1)) (List.mem_cons.2 (Or.inr h2))
          (fun m hm => h3 m (List.mem_cons.2 (Or.inr hm))) hsub1
      refine ⟨ha, ?_, ?_, ?_, ?_, ?_, ?_, ?_⟩
      · intro x hx
        exact hb x (List.mem_cons.2 (Or.inr hx))
      · intro x hx
        rcases hc x hx with h | h
        · rcases List.mem_cons.1 h with rfl | h'
          · exact Or.inr (List.mem_cons_self _ _)
          · exact Or.inl h'
        · exact Or.inr (List.mem_cons.2 (Or.inr h))
      · intro m hm
        rcases List.mem_cons.1 hm with rfl | hm'
        · exact hb m (List.mem_cons_self _ _)
        · exact hd m hm'
      · intro x hx
        exact he x (List.mem_append.2 (Or.inl hx))
      · intro x hx
        rcases hf x hx with h | h
        · rcases List.mem_append.1 h with h' | h'
          · exact Or.inl h'
          · rw [List.mem_singleton] at h'
            subst h'
            exact Or.inr (hb x (List.mem_cons_self _ _))
        · exact Or.inr h
      · intro x hx hxv
        by_cases hx1 : x ∈ (⟨n :: st.visited, (n, curr) :: st.parent,
            st.queue ++ [n]⟩ : BfsState).visited
        · have hxn : x = n := by
            rcases List.mem_cons.1 hx1 with h | h
            · exact h
            · exact absurd h hxv
          subst hxn
          exact he x (List.mem_append.2 (Or.inr (List.mem_singleton.2 rfl)))
        · exact hg x hx hx1
      · rw [hh]
        show (st.queue ++ [n]).length + notVisCard (n :: st.visited) =
          st.queue.length + notVisCard st.visited
        rw [List.length_append]
        have := notVisCard_cons hn
        simp only [List.length_singleton]
        omega

/-- Correctness of the BFS loop, by induction on fuel: the invariant is
preserved; the visited set only grows; when the loop reports `true` the end
node was visited; when it reports `false`, the final visited set is closed
under edges and excludes the end node (so no path can reach it). -/
theorem bfsLoop_spec (es : List Wire3) (startN endN : Term3) :
    ∀ (fuel : Nat) (st : BfsState),
      LoopInv es startN endN st →
      2 * notVisCard st.visited + st.queue.length ≤ fuel →
      (∀ x ∈ st.visited, x ∈ (bfsLoop es endN fuel st).2.visited) ∧
        LoopInv es startN endN (bfsLoop es endN fuel st).2 ∧
        ((bfsLoop es endN fuel st).1 = true → endN ∈ (bfsLoop es endN fuel st).2.visited) ∧
        ((bfsLoop es endN fuel st).1 = false →
          (∀ u ∈ (bfsLoop es endN fuel st).2.visited, ∀ v, edgeBtw es u v →
            v ∈ (bfsLoop es endN fuel st).2.visited) ∧
            endN ∉ (bfsLoop es endN fuel st).2.visited) := by
  intro fuel
  induction fuel with
  | zero =>
    intro st inv hfuel
    have hq : st.queue = [] := by
      rw [← List.length_eq_zero]
      omega
    obtain ⟨vis, par, q⟩ := st
    simp only at hq
    subst hq
    refine ⟨fun x hx => hx, inv, ?_, ?_⟩
    · intro h
      exact absurd h (by simp [bfsLoop])
    · rintro -
      constructor
      · intro u hu v hedge
        exact inv.processed u hu (List.not_mem_nil u) v hedge
      · intro hend
        exact absurd (inv.end_pending hend) (List.not_mem_nil endN)
  | succ fuel ih =>
    intro st inv hfuel
    obtain ⟨vis, par, q⟩ := st
    cases q with
    | nil =>
      refine ⟨fun x hx => hx, inv, ?_, ?_⟩
      · intro h
        exact absurd h (by simp [bfsLoop])
      · rintro -
        constructor
        · intro u hu v hedge
          exact inv.processed u hu (List.not_mem_nil u) v hedge
        · intro hend
          exact absurd (inv.end_pending hend) (List.not_mem_nil endN)
    | cons curr rest =>
      by_cases hce : curr = endN
      · have hres : bfsLoop es endN (fuel + 1) ⟨vis, par, curr :: rest⟩ =
            (true, ⟨vis, par, curr :: rest⟩) := by
          rw [bfsLoop, if_pos hce]
        rw [hres]
        refine ⟨fun x hx => hx, inv, ?_, ?_⟩
        · rintro -
          exact hce ▸ inv.queue_sub curr (List.mem_cons_self _ _)
        · intro h
          exact absurd h (by simp)
      · have hcur : curr ∈ vis := inv.queue_sub curr (List.mem_cons_self _ _)
        have hedges : ∀ n ∈ nbrs es curr, edgeBtw es curr n :=
          fun n hn => (mem_nbrs_iff es curr n).1 hn
        have hsub0 : SubInv es startN ⟨vis, par, rest⟩ := inv.sub
        obtain ⟨ha, hb, hc, hd, he, hf, hg, hh⟩ :=
          bfsFold_facts es startN curr (nbrs es curr) ⟨vis, par, rest⟩
            inv.start_mem hcur hedges hsub0
        have hres : bfsLoop es endN (fuel + 1) ⟨vis, par, curr :: rest⟩ =
            bfsLoop es endN fuel ((nbrs es curr).foldl (bfsStep curr) ⟨vis, par, rest⟩) := by
          rw [bfsLoop, if_neg hce]
        rw [hres]
        have inv2 : LoopInv es startN endN
            ((nbrs es curr).foldl (bfsStep curr) ⟨vis, par, rest⟩) := by
          constructor
          · exact hb startN inv.start_mem
          · intro x hx
            rcases hf x hx with h | h
            · exact hb x (inv.queue_sub x (List.mem_cons.2 (Or.inr h)))
            · exact h
          · exact ha
          · intro u hu hu2 v hedge
            by_cases huv : u ∈ vis
            · by_cases huc : u = curr
              · subst huc
                exact hd v ((mem_nbrs_iff es u v).2 hedge)
              · have hur : u ∉ rest := fun hr => hu2 (he u hr)
                have hunq : u ∉ curr :: rest := by
                  rw [List.mem_cons]
                  rintro (rfl | h)
                  · exact huc rfl
                  · exact hur h
                exact hb v (inv.processed u huv hunq v hedge)
            · exact absurd (hg u hu huv) hu2
          · intro hend
            by_cases hev : endN ∈ vis
            · have := inv.end_pending hev
              rcases List.mem_cons.1 this with h | h
              · exact absurd h.symm hce
              · exact he endN h
            · exact hg endN hend hev
        have hm2 : 2 * notVisCard ((nbrs es curr).foldl (bfsStep curr)
            ⟨vis, par, rest⟩).visited +
            ((nbrs es curr).foldl (bfsStep curr) ⟨vis, par, rest⟩).queue.length ≤ fuel := by
          have hmono : notVisCard ((nbrs es curr).foldl (bfsStep curr)
              ⟨vis, par, rest⟩).visited ≤ notVisCard vis := notVisCard_mono hb
          have hlen : ((curr :: rest) : List Term3).length = rest.length + 1 := rfl
          simp only at hfuel hh
          omega
        obtain ⟨ja, jb, jc, jd⟩ := ih _ inv2 hm2
        refine ⟨?_, jb, jc, jd⟩
        intro x hx
        exact ja x (hb x hx)

/-- `any` is insensitive to reversal. -/
theorem any_reverse (l : List Term3) (f : Term3 → Bool) : l.reverse.any f = l.any f := by
  induction l with
  | nil => rfl
  | cons x t ih =>
    rw [List.reverse_cons, List.any_append, ih, List.any_cons, List.any_cons, List.any_nil]
    cases f x <;> cases t.any f <;> rfl

/-- A nonempty chain starts with an edge out of its head. -/
theorem chain_first_edge {R : Term3 → Term3 → Prop} (l : List Term3) (a : Term3)
    (hc : List.Chain' R (a :: l)) (hne : l ≠ []) : ∃ u, R a u := by
  cases l with
  | nil => exact absurd rfl hne
  | cons x t => exact ⟨x, (List.chain'_cons.1 hc).1⟩

/-- A chain starting inside an edge-closed set stays inside it. -/
theorem chain_stays {es : List Wire3} {S : List Term3}
    (hclosed : ∀ u ∈ S, ∀ v, edgeBtw es u v → v ∈ S) :
    ∀ (l : List Term3) (a : Term3), a ∈ S → List.Chain' (edgeBtw es) (a :: l) →
      ∀ z ∈ a :: l, z ∈ S := by
  intro l
  induction l with
  | nil =>
    intro a ha _ z hz
    rw [List.mem_singleton] at hz
    exact hz ▸ ha
  | cons x t ih =>
    intro a ha hc z hz
    rw [List.chain'_cons] at hc
    have hx : x ∈ S := hclosed a ha x hc.1
    rcases List.mem_cons.1 hz with rfl | hz'
    · exact ha
    · exact ih x hx hc.2 z hz'

/-- A successful parent lookup means the node is a stored key. -/
theorem lookup_mem_keys {par : List (Term3 × Term3)} {x p : Term3}
    (h : lookupPar par x = some p) : x ∈ par.map Prod.fst := by
  induction par with
  | nil => exact absurd h (by rw [lookupPar]; simp)
  | cons e t ih =>
    obtain ⟨c, q⟩ := e
    rw [lookupPar] at h
    by_cases hxc : x = c
    · rw [List.map_cons, List.mem_cons]
      exact Or.inl hxc
    · rw [if_neg hxc] at h
      rw [List.map_cons, List.mem_cons]
      exact Or.inr (ih h)

/-- A duplicate-free list contained in another is no longer than it. -/
theorem nodup_subset_length {l l' : List Term3} (hnd : l.Nodup)
    (hsub : ∀ x ∈ l, x ∈ l') : l.length ≤ l'.length := by
  classical
  calc l.length = l.toFinset.card := (List.toFinset_card_of_nodup hnd).symm
    _ ≤ l'.toFinset.card := Finset.card_le_card fun x hx => by
        rw [List.mem_toFinset] at hx ⊢
        exact hsub x hx
    _ ≤ l'.length := l'.toFinset_card_le

/-- A nonempty parent walk is a lookup chain ending at the start node. -/
theorem walksTo_chain {startN : Term3} {par : List (Term3 × Term3)} :
    ∀ (l : List Term3) (c : Term3), WalksTo startN par l c → l ≠ [] →
      l.head? = some c ∧
        List.Chain' (fun a b => lookupPar par a = some b) (l ++ [startN]) := by
  intro l
  induction l with
  | nil =>
    intro c _ h
    exact absurd rfl h
  | cons x xs ih =>
    intro c h _
    obtain ⟨hx, p, hlk, hw⟩ := h
    subst hx
    cases xs with
    | nil =>
      have hp : p = startN := hw
      refine ⟨rfl, ?_⟩
      rw [List.cons_append, List.nil_append, List.chain'_cons]
      exact ⟨hp ▸ hlk, List.chain'_singleton _⟩
    | cons y ys =>
      obtain ⟨hh, hch⟩ := ih p hw (by simp)
      have hy : y = p := by simpa using hh
      refine ⟨rfl, ?_⟩
      rw [List.cons_append, List.cons_append, List.chain'_cons]
      constructor
      · rw [hy]
        exact hlk
      · rw [List.cons_append] at hch
        exact hch

/-- The reversed parent walk of the end node is a simple path from
`battery-pos` to `battery-neg`. -/
theorem walksTo_isPath {es : List Wire3} {par : List (Term3 × Term3)}
    (hkeys : ∀ c p, lookupPar par c = some p →
      c ≠ Term3.batteryPos ∧ edgeBtw es p c)
    (l : List Term3) (hw : WalksTo .batteryPos par l .batteryNeg)
    (hnd : l.Nodup) :
    IsPath es .batteryPos l.reverse .batteryNeg := by
  have hposnot : Term3.batteryPos ∉ l := by
    intro hmem
    obtain ⟨p, hp⟩ := walksTo_keys l .batteryNeg hw _ hmem
    exact (hkeys _ p hp).1 rfl
  cases l with
  | nil => exact absurd (show Term3.batteryNeg = Term3.batteryPos from hw) (by decide)
  | cons x xs =>
    obtain ⟨hh, hch⟩ := walksTo_chain (x :: xs) .batteryNeg hw (by simp)
    have hx : x = Term3.batteryNeg := by simpa using hh
    refine ⟨?_, ?_, ?_⟩
    · have hch2 : List.Chain' (fun a b => edgeBtw es b a) ((x :: xs) ++ [.batteryPos]) :=
        List.Chain'.imp (fun a b hab => (hkeys a b hab).2) hch
      have hrev := (List.chain'_reverse).2 hch2
      rw [List.reverse_append, List.reverse_cons, List.reverse_nil, List.nil_append] at hrev
      exact hrev
    · rw [List.reverse_cons, hx, lastOf_append]
    · rw [List.nodup_cons, List.mem_reverse, List.nodup_reverse]
      exact ⟨hposnot, hnd⟩

/-- A visited end node yields a successful path reconstruction whose reversal
is a simple path. -/
theorem found_gives_path {es : List Wire3} {st : BfsState}
    (hsub : SubInv es .batteryPos st) (hend : Term3.batteryNeg ∈ st.visited) :
    ∃ l, walkParents .batteryPos st.parent (st.parent.length + 1) .batteryNeg = some l ∧
      IsPath es .batteryPos l.reverse .batteryNeg := by
  obtain ⟨hkeys, hpkg⟩ := hsub
  obtain ⟨l, hw, hnd, -⟩ := hpkg _ hend
  have hlen : l.length < st.parent.length + 1 := by
    have hsubk : ∀ x ∈ l, x ∈ st.parent.map Prod.fst := by
      intro x hx
      obtain ⟨p, hp⟩ := walksTo_keys l _ hw x hx
      exact lookup_mem_keys hp
    have hle : l.length ≤ (st.parent.map Prod.fst).length := nodup_subset_length hnd hsubk
    rw [List.length_map] at hle
    omega
  refine ⟨l, walksTo_walkParents (fun c p h => (hkeys c p h).2.1) l _ hw _ hlen, ?_⟩
  exact walksTo_isPath (fun c p h => ⟨(hkeys c p h).2.1, (hkeys c p h).2.2⟩) l hw hnd

/-- The BFS invariant at the initial state `queue = visited = [battery-pos]`,
`parent` empty. -/
theorem initial_loopInv (es : List Wire3) :
    LoopInv es .batteryPos .batteryNeg ⟨[.batteryPos], [], [.batteryPos]⟩ := by
  constructor
  · exact List.mem_cons_self _ _
  · intro x hx
    exact hx
  · constructor
    · intro c p hlk
      rw [lookupPar] at hlk
      exact absurd hlk (by simp)
    · intro c hc
      rw [List.mem_singleton] at hc
      subst hc
      refine ⟨[], rfl, List.nodup_nil, ?_⟩
      intro x hx
      exact absurd hx (List.not_mem_nil x)
  · intro u hu hq
    exact absurd hu hq
  · intro hend
    rw [List.mem_singleton] at hend
    exact absurd hend (by decide)

/-- When a simple path from `battery-pos` to `battery-neg` exists, lesson 3's
`checkCircuit` finds it (by path uniqueness the BFS tree path is that very
path) and the verdict is computed from its nodes: the bulb lights iff the
path visits a bulb node, and the message reports whether it visits a switch
node. -/
theorem checkCircuit3_path_spec (ws : List Wire3) (closed : Bool) (l : List Term3)
    (hv : ValidWires ws)
    (hp : IsPath (circuitEdges ws closed) .batteryPos l .batteryNeg) :
    checkCircuit3 ws closed =
      ⟨l.any isBulbNode, if l.any isBulbNode then some (l.any isSwitchNode) else none⟩ := by
  obtain ⟨hchain, hl, hn⟩ := hp
  have hne : l ≠ [] := by
    intro h
    subst h
    rw [lastOf] at hl
    exact absurd hl (by decide)
  have hneg : adjHas (circuitEdges ws closed) .batteryNeg = true := by
    obtain ⟨u, hu⟩ := chain_last_edge l .batteryPos hchain hne
    rw [hl] at hu
    exact adjHas_of_edge (edgeBtw_symm hu)
  have hpos : adjHas (circuitEdges ws closed) .batteryPos = true := by
    obtain ⟨u, hu⟩ := chain_first_edge l .batteryPos hchain hne
    exact adjHas_of_edge hu
  obtain ⟨ma, mb, mc, md⟩ := bfsLoop_spec (circuitEdges ws closed) .batteryPos .batteryNeg
    bfsFuel ⟨[.batteryPos], [], [.batteryPos]⟩ (initial_loopInv _) (by decide)
  have hfound : (bfsLoop (circuitEdges ws closed) .batteryNeg bfsFuel
      ⟨[.batteryPos], [], [.batteryPos]⟩).1 = true := by
    by_contra hf
    rw [Bool.not_eq_true] at hf
    obtain ⟨hclosed, hnotend⟩ := md hf
    have hstart : Term3.batteryPos ∈ (bfsLoop (circuitEdges ws closed) .batteryNeg bfsFuel
        ⟨[.batteryPos], [], [.batteryPos]⟩).2.visited :=
      ma _ (List.mem_cons_self _ _)
    have hall := chain_stays hclosed l .batteryPos hstart hchain
    exact hnotend (hl ▸ hall (lastOf .batteryPos l) (lastOf_mem _ _))
  obtain ⟨lt, hwp, hpath⟩ := found_gives_path mb.sub (mc hfound)
  have heq : lt.reverse = l := path_unique hv closed lt.reverse l hpath ⟨hchain, hl, hn⟩
  have hanyb : lt.any isBulbNode = l.any isBulbNode := by
    rw [← heq, any_reverse]
  have hanys : lt.any isSwitchNode = l.any isSwitchNode := by
    rw [← heq, any_reverse]
  unfold checkCircuit3
  simp only []
  rw [if_neg (by rw [hpos, hneg]; simp)]
  rw [if_pos hfound]
  unfold evalPath
  rw [hwp]
  show (if lt.any isBulbNode then
      (⟨true, some (lt.any isSwitchNode)⟩ : Verdict3) else offVerdict) = _
  rw [hanyb, hanys]
  by_cases hb : l.any isBulbNode = true
  · rw [if_pos hb, if_pos hb, hb]
  · rw [Bool.not_eq_true] at hb
    rw [hb]
    rfl

/-- When no simple path from `battery-pos` to `battery-neg` exists, lesson
3's `checkCircuit` turns the bulb off. -/
theorem checkCircuit3_no_path (ws : List Wire3) (closed : Bool)
    (h : ∀ l, ¬ IsPath (circuitEdges ws closed) .batteryPos l .batteryNeg) :
    checkCircuit3 ws closed = offVerdict := by
  unfold checkCircuit3
  simp only []
  by_cases hguard : adjHas (circuitEdges ws closed) .batteryPos = false ∨
      adjHas (circuitEdges ws closed) .batteryNeg = false
  · rw [if_pos hguard]
  · rw [if_neg hguard]
    obtain ⟨ma, mb, mc, md⟩ := bfsLoop_spec (circuitEdges ws closed) .batteryPos .batteryNeg
      bfsFuel ⟨[.batteryPos], [], [.batteryPos]⟩ (initial_loopInv _) (by decide)
    by_cases hf : (bfsLoop (circuitEdges ws closed) .batteryNeg bfsFuel
        ⟨[.batteryPos], [], [.batteryPos]⟩).1 = true
    · exfalso
      obtain ⟨lt, hwp, hpath⟩ := found_gives_path mb.sub (mc hf)
      exact h lt.reverse hpath
    · rw [Bool.not_eq_true] at hf
      rw [hf]
      rfl

/-- Open-switch edges are also closed-switch edges. -/
theorem circuitEdges_mono {ws : List Wire3} {u v : Term3}
    (h : edgeBtw (circuitEdges ws false) u v) : edgeBtw (circuitEdges ws true) u v := by
  unfold circuitEdges at h ⊢
  rw [edgeBtw_append] at h ⊢
  rcases h with h | h
  · exact Or.inl h
  · obtain ⟨e, he, -⟩ := h
    simp at he

/-- Two consecutive nodes of a chain are joined by an edge. -/
theorem adjacentIn_chain {es : List Wire3} {u v : Term3} :
    ∀ l : List Term3, List.Chain' (edgeBtw es) l → adjacentIn l u v = true →
      edgeBtw es u v ∨ edgeBtw es v u := by
  intro l
  induction l with
  | nil =>
    intro _ h
    simp [adjacentIn] at h
  | cons x t ih =>
    intro hc h
    cases t with
    | nil => simp [adjacentIn] at h
    | cons y r =>
      rw [adjacentIn] at h
      rw [List.chain'_cons] at hc
      rw [Bool.or_eq_true, Bool.or_eq_true] at h
      rcases h with (h | h) | h
      · rw [decide_eq_true_eq] at h
        exact Or.inl (h.1 ▸ h.2 ▸ hc.1)
      · rw [decide_eq_true_eq] at h
        exact Or.inr (h.1 ▸ h.2 ▸ hc.1)
      · exact ih hc.2 h

/-! ## Claim C1: switch gating -/

/-- Claim C1: for every occupancy-valid wiring in which a simple pole-to-pole
path through the bulb exists, every such path runs through the switch's
intrinsic front-rear edge, and no user wire bridges the switch terminals
directly, `checkCircuit` reports the bulb off with the switch open and on
with the switch closed; moreover the front-rear edge is part of the
evaluated graph exactly when the closed flag is true. -/
theorem lesson3_switch_gating (ws : List Wire3)
    (hv : ValidWires ws)
    (hex : ∃ l, IsPath (circuitEdges ws true) .batteryPos l .batteryNeg ∧
      l.any isBulbNode = true ∧
      adjacentIn (.batteryPos :: l) .switchFront .switchRear = true)
    (honly : ∀ l, IsPath (circuitEdges ws true) .batteryPos l .batteryNeg →
      l.any isBulbNode = true →
      adjacentIn (.batteryPos :: l) .switchFront .switchRear = true)
    (hnosw : ∀ w ∈ ws, ¬ ((w.1 = .switchFront ∧ w.2 = .switchRear) ∨
      (w.1 = .switchRear ∧ w.2 = .switchFront))) :
    (checkCircuit3 ws false).bulbOn = false ∧
      (checkCircuit3 ws true).bulbOn = true ∧
      ∀ c : Bool, edgeBtw (circuitEdges ws c) .switchFront .switchRear ↔ c = true := by
  have hedgeiff : ∀ c : Bool,
      edgeBtw (circuitEdges ws c) .switchFront .switchRear ↔ c = true := by
    intro c
    constructor
    · intro h
      rcases edgeBtw_circuit h with h | h | h
      · obtain ⟨e, he, hd⟩ := h
        exact absurd hd (hnosw e he)
      · rcases h with ⟨h1, -⟩ | ⟨h1, -⟩ <;> exact absurd h1 (by decide)
      · exact h.1
    · intro hc
      subst hc
      refine ⟨(.switchFront, .switchRear), ?_, Or.inl ⟨rfl, rfl⟩⟩
      show _ ∈ (ws ++ [((.bulbT1 : Term3), (.bulbT2 : Term3))]) ++
        [((.switchFront : Term3), (.switchRear : Term3))]
      exact List.mem_append.2 (Or.inr (List.mem_singleton.2 rfl))
  refine ⟨?_, ?_, hedgeiff⟩
  · by_cases hpath : ∃ l, IsPath (circuitEdges ws false) .batteryPos l .batteryNeg
    · obtain ⟨l, hl⟩ := hpath
      rw [checkCircuit3_path_spec ws false l hv hl]
      cases hbv : l.any isBulbNode with
      | false => rfl
      | true =>
        exfalso
        have hlc : IsPath (circuitEdges ws true) .batteryPos l .batteryNeg := by
          obtain ⟨hc, hll, hn⟩ := hl
          exact ⟨List.Chain'.imp (fun x y hxy => circuitEdges_mono hxy) hc, hll, hn⟩
        have hadj := honly l hlc hbv
        have hsw := adjacentIn_chain (Term3.batteryPos :: l) hl.1 hadj
        have hnoedge : ¬ edgeBtw (circuitEdges ws false) .switchFront .switchRear := by
          intro h
          have := (hedgeiff false).1 h
          exact absurd this (by decide)
        rcases hsw with h | h
        · exact hnoedge h
        · exact hnoedge (edgeBtw_symm h)
    · rw [checkCircuit3_no_path ws false fun l h => hpath ⟨l, h⟩]
      rfl
  · obtain ⟨l, hl, hbulb, -⟩ := hex
    rw [checkCircuit3_path_spec ws true l hv hl]
    exact hbulb

/-- Witness for C1 at the canonical wiring. -/
theorem lesson3_switch_gating_witness :
    ValidWires demoWires3 ∧
      IsPath (circuitEdges demoWires3 true) .batteryPos demoPath3 .batteryNeg ∧
      (checkCircuit3 demoWires3 false).bulbOn = false ∧
      (checkCircuit3 demoWires3 true).bulbOn = true := by
  have hmain := lesson3_switch_gating demoWires3 (by decide)
    ⟨demoPath3, by decide, by decide, by decide⟩
    (fun l hl _ => by
      rw [@path_unique demoWires3 (by decide) true l demoPath3 hl (by decide)]
      decide)
    (by decide)
  exact ⟨by decide, by decide, hmain.1, hmain.2.1⟩

/-! ## Claim C2: short circuits -/

/-- Claim C2 counterexample: a direct wire between the battery poles (a short
circuit) evaluates to exactly the same verdict as the empty circuit, namely
`turnOffBulb` with the message hidden.  The evaluation result carries only
the bulb state and the message; no component of it can be a
shortCircuitDetected flag that is true on the short circuit, since the
result coincides with that of a graph with no short circuit at all. -/
theorem lesson3_short_circuit_no_flag_cex :
    checkCircuit3 [(.batteryPos, .batteryNeg)] false = checkCircuit3 [] false ∧
      checkCircuit3 [(.batteryPos, .batteryNeg)] false = offVerdict := by
  decide

/-- Claim C2 amended: on every occupancy-valid wiring whose poles are joined
by a simple path visiting no bulb node, evaluation reports the bulb not
energized; the result equals the open-circuit (empty-graph) verdict, there
being no short-circuit flag in the code. -/
theorem lesson3_short_circuit_off (ws : List Wire3) (closed : Bool) (l : List Term3)
    (hv : ValidWires ws)
    (hp : IsPath (circuitEdges ws closed) .batteryPos l .batteryNeg)
    (hnb : l.any isBulbNode = false) :
    checkCircuit3 ws closed = offVerdict ∧
      checkCircuit3 ws closed = checkCircuit3 [] closed := by
  have h := checkCircuit3_path_spec ws closed l hv hp
  rw [hnb] at h
  have h2 : checkCircuit3 ws closed = offVerdict := by
    rw [h, if_neg (show ¬(false : Bool) = true by simp)]
    rfl
  refine ⟨h2, ?_⟩
  rw [h2]
  cases closed <;> decide

/-- Witness for the amended C2 at the direct pole-to-pole wire. -/
theorem lesson3_short_circuit_off_witness :
    ValidWires [((.batteryPos : Term3), (.batteryNeg : Term3))] ∧
      IsPath (circuitEdges [(.batteryPos, .batteryNeg)] false) .batteryPos
        [.batteryNeg] .batteryNeg ∧
      checkCircuit3 [(.batteryPos, .batteryNeg)] false = offVerdict :=
  ⟨by decide, by decide,
    (lesson3_short_circuit_off [(.batteryPos, .batteryNeg)] false [.batteryNeg]
      (by decide) (by decide) (by decide)).1⟩

/-! ## Claim C7: evaluation depends only on the wire set -/

/-- Edge existence only depends on wire membership. -/
theorem edgeBtw_of_perm {es es' : List Wire3} (hperm : es.Perm es') (u v : Term3)
    (h : edgeBtw es u v) : edgeBtw es' u v := by
  obtain ⟨e, he, hd⟩ := h
  exact ⟨e, hperm.mem_iff.1 he, hd⟩

/-- Permuting the wires permutes the evaluated edge list. -/
theorem circuitEdges_perm {ws ws' : List Wire3} (hperm : ws.Perm ws') (closed : Bool) :
    (circuitEdges ws closed).Perm (circuitEdges ws' closed) := by
  unfold circuitEdges
  exact (hperm.append_right _).append_right _

/-- Paths transfer along wire permutations. -/
theorem isPath_perm {ws ws' : List Wire3} (hperm : ws.Perm ws') (closed : Bool)
    (l : List Term3) (a b : Term3)
    (h : IsPath (circuitEdges ws closed) a l b) :
    IsPath (circuitEdges ws' closed) a l b := by
  obtain ⟨hc, hl, hn⟩ := h
  refine ⟨List.Chain'.imp ?_ hc, hl, hn⟩
  intro x y hxy
  exact edgeBtw_of_perm (circuitEdges_perm hperm closed) x y hxy

/-- Permuting wires permutes the flattened endpoint list. -/
theorem flatMap_endpoints_perm {ws ws' : List Wire3} (hperm : ws.Perm ws') :
    (ws.flatMap fun w => [w.1, w.2]).Perm (ws'.flatMap fun w => [w.1, w.2]) := by
  induction hperm with
  | nil => exact List.Perm.refl _
  | cons x h ih =>
    rw [List.flatMap_cons, List.flatMap_cons]
    exact ih.append_left _
  | swap x y t =>
    rw [List.flatMap_cons, List.flatMap_cons, List.flatMap_cons, List.flatMap_cons]
    rw [← List.append_assoc, ← List.append_assoc]
    exact List.perm_append_comm.append_right _
  | trans h1 h2 ih1 ih2 => exact ih1.trans ih2

/-- The occupancy invariant transfers along permutations. -/
theorem validWires_perm {ws ws' : List Wire3} (hperm : ws.Perm ws')
    (hv : ValidWires ws) : ValidWires ws' := by
  unfold ValidWires at hv ⊢
  exact (flatMap_endpoints_perm hperm).nodup_iff.1 hv

/-- Claim C7: on occupancy-valid states the evaluation verdict depends only
on the set of stored wires, not on the order in which mutations produced
them; in particular adding wire A then B evaluates like adding B then A. -/
theorem lesson3_eval_perm_invariant (ws ws' : List Wire3) (closed : Bool)
    (hv : ValidWires ws) (hperm : ws.Perm ws') :
    checkCircuit3 ws closed = checkCircuit3 ws' closed := by
  by_cases hpath : ∃ l, IsPath (circuitEdges ws closed) .batteryPos l .batteryNeg
  · obtain ⟨l, hl⟩ := hpath
    rw [checkCircuit3_path_spec ws closed l hv hl,
      checkCircuit3_path_spec ws' closed l (validWires_perm hperm hv)
        (isPath_perm hperm closed l _ _ hl)]
  · rw [checkCircuit3_no_path ws closed fun l h => hpath ⟨l, h⟩,
      checkCircuit3_no_path ws' closed fun l h =>
        hpath ⟨l, isPath_perm hperm.symm closed l _ _ h⟩]

/-- Witness for C7: the two orders of adding the same two wires. -/
theorem lesson3_eval_perm_invariant_witness :
    ValidWires [((.batteryPos : Term3), (.bulbT1 : Term3)), (.bulbT2, .batteryNeg)] ∧
      List.Perm [((.batteryPos : Term3), (.bulbT1 : Term3)), (.bulbT2, .batteryNeg)]
        [(.bulbT2, .batteryNeg), (.batteryPos, .bulbT1)] ∧
      checkCircuit3 [(.batteryPos, .bulbT1), (.bulbT2, .batteryNeg)] false =
        checkCircuit3 [(.bulbT2, .batteryNeg), (.batteryPos, .bulbT1)] false :=
  ⟨by decide, by decide,
    lesson3_eval_perm_invariant _ _ false (by decide) (by decide)⟩
